import Mathlib

/-!
Verification development for the meta-supervisor semantic subsystem:
the TF-IDF tokenizer/vectorizer, the heuristic code chunker, the
semantic store's similarity search, and the similarity engine.

Sources embedded here:
- the TF-IDF embeddings module (tokenize, TfIdfVectorizer with
  addDocuments / embed / cosineSimilarity / serialize / deserialize);
- the code chunker (chunkCode, findBlockEnd, findStatementEnd);
- the semantic store's search / findSimilar (the SQLite table is
  modelled as the list of stored rows it holds);
- the semantic supervisor (analyzeFile, detectInconsistency).

Modelling conventions:
- JavaScript `Map` is modelled as an insertion-ordered association list
  (`mapGet` / `mapSet` reproduce Map.get / Map.set semantics: set updates
  an existing key in place, otherwise appends);
- JavaScript numbers used as counters/indices are `Nat`; similarity and
  embedding weights (floats) are modelled as real numbers, with
  Math.log = Real.log and Math.sqrt = Real.sqrt;
- regular expressions are compiled by hand into character-list scanners
  whose backtracking behaviour is reproduced case by case (each scanner
  carries a comment with the regex it implements).
-/

set_option maxHeartbeats 1000000

namespace MetaSupervisor

/-! ### Character classes (JS regex classes, ASCII fragment) -/

/-- Left brace character (written by code point). -/
def lbrace : Char := Char.ofNat 123

/-- Right brace character (written by code point). -/
def rbrace : Char := Char.ofNat 125

/-- Backquote character (written by code point). -/
def backquote : Char := Char.ofNat 96

/-- Single-quote character (written by code point). -/
def squote : Char := Char.ofNat 39

/-- JS regex whitespace class (ASCII fragment relevant to source files). -/
def jsWs (c : Char) : Bool :=
  c == ' ' || c == '\t' || c == '\n' || c == '\x0d' || c == '\x0b' || c == '\x0c'

/-- JS regex word class: [A-Za-z0-9_]. -/
def isWordChar (c : Char) : Bool :=
  c.isAlphanum || c == '_'

/-- ASCII letter: [A-Za-z]. -/
def isAsciiLetter (c : Char) : Bool :=
  c.isUpper || c.isLower

/-- Characters kept by the final token split [a-z0-9] (text is lowercased first). -/
def isTokenChar (c : Char) : Bool :=
  (('a' ≤ c) && (c ≤ 'z')) || c.isDigit

/-! ### Tokenizer

Embedding of the source function

  export function tokenize(code: string): string[]

which (1) replaces quoted string literals with a sentinel, (2) replaces
standalone numeric literals with a sentinel, (3) splits camelCase and
acronym boundaries, (4) lowercases, (5) splits on non-alphanumeric runs,
(6) drops tokens shorter than 2 characters.
-/

/-- Scanner for the body of a string literal after its opening quote, for
the regex (["'`])(?:(?!\1|\\).|\\.)*\1 : consumes characters that are not
the quote (a backslash always consumes the following character) until the
closing quote; returns the remainder after the closing quote, or none if
the literal never closes (in which case the regex match attempt fails).
The repetition is deterministic: a backslash can only be consumed as part
of an escape pair, and the scan stops exactly at the first available
closing quote, so no backtracking case distinction arises. -/
def scanStrLit (q : Char) : List Char → Option (List Char)
  | [] => none
  | c :: cs =>
    if c == q then some cs
    else if c == '\\' then
      match cs with
      | [] => none
      | _ :: cs' => scanStrLit q cs'
    else scanStrLit q cs

theorem scanStrLit_nil (q : Char) : scanStrLit q [] = none := by
  rw [scanStrLit.eq_def]

theorem scanStrLit_cons (q c : Char) (cs : List Char) :
    scanStrLit q (c :: cs) =
      if c == q then some cs
      else if c == '\\' then
        match cs with
        | [] => none
        | _ :: cs' => scanStrLit q cs'
      else scanStrLit q cs := by
  conv_lhs => rw [scanStrLit.eq_def]

theorem scanStrLit_length_le_aux (q : Char) :
    ∀ (n : Nat) (cs : List Char), cs.length ≤ n →
      ∀ r, scanStrLit q cs = some r → r.length ≤ cs.length := by
  intro n
  induction n with
  | zero =>
    intro cs hcs r h
    have : cs = [] := List.eq_nil_of_length_eq_zero (Nat.le_zero.mp hcs)
    subst this
    simp [scanStrLit_nil] at h
  | succ n ih =>
    intro cs hcs r h
    cases cs with
    | nil => simp [scanStrLit_nil] at h
    | cons c cs' =>
      rw [scanStrLit_cons] at h
      by_cases hq : (c == q) = true
      · rw [if_pos hq] at h
        cases h
        simp
      · rw [if_neg hq] at h
        by_cases hb : (c == '\\') = true
        · rw [if_pos hb] at h
          cases cs' with
          | nil => simp at h
          | cons x cs'' =>
            simp only [List.length_cons] at hcs ⊢
            have := ih cs'' (by omega) r h
            omega
        · rw [if_neg hb] at h
          simp only [List.length_cons] at hcs ⊢
          have := ih cs' (by omega) r h
          omega

theorem scanStrLit_length_le (q : Char) (cs : List Char) (r : List Char)
    (h : scanStrLit q cs = some r) : r.length ≤ cs.length :=
  scanStrLit_length_le_aux q cs.length cs (Nat.le_refl _) r h

/-- Quote characters recognised by the string-literal regex: ", ', `. -/
def isQuote (c : Char) : Bool :=
  c == '"' || c == squote || c == backquote

/-- Replacement text for string literals. -/
def strLiteralRepl : List Char := " STR_LITERAL ".data

/-- Global replacement of string literals, for
  code.replace(/(["'`])(?:(?!\1|\\).|\\.)*\1/g, " STR_LITERAL ") :
scan left to right; at a quote character attempt the literal match and on
success replace the matched span, resuming after it; otherwise keep the
character and move on. -/
def stripStrLits : List Char → List Char
  | [] => []
  | c :: cs =>
    if isQuote c then
      match h : scanStrLit c cs with
      | some rest => strLiteralRepl ++ stripStrLits rest
      | none => c :: stripStrLits cs
    else c :: stripStrLits cs
termination_by cs => cs.length
decreasing_by
  all_goals simp only [List.length_cons]
  · rename_i rest h
    have := scanStrLit_length_le _ _ _ h
    omega
  · omega
  · omega

/-- Replacement text for numeric literals. -/
def numLiteralRepl : List Char := " NUM_LITERAL ".data

/-- Word boundary test used by the numeric-literal regex: a position is a
boundary before a digit iff it is the start of the input or the previous
character is a non-word character. The scanner below only ever needs to
know whether the previous character was a word character, so it carries
that single bit (prevWord) instead of the character itself. -/
def numBoundary (prevWord : Bool) : Bool := !prevWord

/-- Global replacement for cleaned.replace(/\b\d+\.?\d*\b/g, " NUM_LITERAL ").
The regex engine's greedy matching with backtracking at the trailing \b is
reproduced case by case:
- d1 is the maximal digit run at the match start (matching \d+);
- if d1 is followed by '.', d2 is the maximal digit run after the dot;
  - d2 nonempty and followed by end-of-input or a non-word character:
    the full d1.d2 is matched;
  - d2 nonempty but followed by a word character: \d* backtracks to
    empty and the trailing \b holds between '.' and the first digit of
    d2, so d1. is matched and scanning resumes at d2 (previous
    character '.', a non-word character);
  - d2 empty and the character after '.' is a word character: d1. is
    matched (\b holds between '.' and that character);
  - d2 empty otherwise: \.? backtracks to empty and d1 alone is matched
    (\b holds between the last digit and '.'), scanning resumes at '.';
- if d1 is followed by a word character (necessarily a letter or '_'),
  every backtracking alternative fails, the match attempt at this
  position fails and the engine advances one character;
- otherwise d1 alone is matched. -/
def numScan (prevWord : Bool) : List Char → List Char
  | [] => []
  | c :: cs =>
    if hd : c.isDigit && numBoundary prevWord then
      match hr1 : (c :: cs).dropWhile Char.isDigit with
      | [] => numLiteralRepl
      | x :: rest2 =>
        have hb1 : rest2.length < cs.length := by
          have hs := (List.dropWhile_sublist (l := cs) Char.isDigit).length_le
          rw [List.dropWhile_cons_of_pos (Bool.and_eq_true_iff.mp hd).1] at hr1
          rw [hr1] at hs
          simp only [List.length_cons] at hs
          omega
        if x == '.' then
          if (rest2.takeWhile Char.isDigit).isEmpty then
            match rest2 with
            | [] => numLiteralRepl ++ numScan true (x :: rest2)
            | y :: _ =>
              if isWordChar y then numLiteralRepl ++ numScan false rest2
              else numLiteralRepl ++ numScan true (x :: rest2)
          else
            match hr3 : rest2.dropWhile Char.isDigit with
            | [] => numLiteralRepl
            | y :: t =>
              have hb3 : t.length < rest2.length := by
                have hs := (List.dropWhile_sublist (l := rest2) Char.isDigit).length_le
                rw [hr3] at hs
                simp only [List.length_cons] at hs
                omega
              if isWordChar y then numLiteralRepl ++ numScan false rest2
              else numLiteralRepl ++ numScan true (y :: t)
        else
          if isWordChar x then c :: numScan (isWordChar c) cs
          else numLiteralRepl ++ numScan true (x :: rest2)
    else c :: numScan (isWordChar c) cs
termination_by cs => cs.length
decreasing_by
  all_goals simp only [List.length_cons]
  all_goals omega

/-- Camel-case splitting, for cleaned.replace(/([a-z])([A-Z])/g, "$1 $2"):
a space is inserted between a lowercase letter and the following uppercase
letter; both matched characters are consumed, so scanning resumes after
the uppercase letter. -/
def camelSplit : List Char → List Char
  | [] => []
  | [c] => [c]
  | x :: y :: rest =>
    if x.isLower && y.isUpper then x :: ' ' :: y :: camelSplit rest
    else x :: camelSplit (y :: rest)
termination_by cs => cs.length

/-- Acronym splitting, for cleaned.replace(/([A-Z]+)([A-Z][a-z])/g, "$1 $2"):
at an uppercase run of length n followed by a lowercase letter (which
requires n ≥ 2, since the greedy [A-Z]+ backtracks to leave one uppercase
letter for the second group), a space is inserted before the last
uppercase letter of the run; the match consumes the run and the lowercase
letter. If no lowercase letter follows, the match attempt fails and the
engine advances one character. -/
def acronymSplit : List Char → List Char
  | [] => []
  | c :: cs =>
    if hu : c.isUpper then
      match hr : (c :: cs).dropWhile Char.isUpper with
      | [] => c :: acronymSplit cs
      | x :: rest =>
        have hb : rest.length < cs.length := by
          have hs := (List.dropWhile_sublist (l := cs) Char.isUpper).length_le
          rw [List.dropWhile_cons_of_pos hu] at hr
          rw [hr] at hs
          simp only [List.length_cons] at hs
          omega
        let run := (c :: cs).takeWhile Char.isUpper
        if 2 ≤ run.length && x.isLower then
          run.dropLast ++ ' ' :: run.getLastD ' ' :: x :: acronymSplit rest
        else c :: acronymSplit cs
    else c :: acronymSplit cs
termination_by cs => cs.length
decreasing_by
  all_goals simp only [List.length_cons]
  all_goals omega

/-- Final splitting stage: maximal runs of [a-z0-9] characters, for
.split(/[^a-z0-9]+/) (empty fragments produced by JS split are removed
later by the length filter in any case, so only the nonempty runs are
collected). -/
def tokenRuns : List Char → List (List Char)
  | [] => []
  | c :: cs =>
    if ht : isTokenChar c then
      have hb : ((c :: cs).dropWhile isTokenChar).length < cs.length + 1 := by
        rw [List.dropWhile_cons_of_pos ht]
        have hs := (List.dropWhile_sublist (l := cs) isTokenChar).length_le
        omega
      ((c :: cs).takeWhile isTokenChar) :: tokenRuns ((c :: cs).dropWhile isTokenChar)
    else tokenRuns cs
termination_by cs => cs.length
decreasing_by
  all_goals simp only [List.length_cons]
  all_goals omega

/-- Embedding of the source function tokenize: replace string literals,
replace numeric literals, split camelCase and acronym boundaries,
lowercase, split on non-alphanumeric runs, and drop tokens shorter than
2 characters. -/
def tokenize (code : String) : List String :=
  let cleaned := acronymSplit (camelSplit (numScan false (stripStrLits code.data)))
  let lowered := cleaned.map Char.toLower
  ((tokenRuns lowered).filter (fun t => 2 ≤ t.length)).map (fun t => String.mk t)

/-! ### Insertion-ordered maps (JS Map semantics)

A JS Map is modelled as a list of key/value pairs in insertion order.
Map.get returns the value of the (unique) entry for the key; Map.set
updates an existing entry in place, keeping its position, and otherwise
appends a new entry; Map.size is the number of entries; [...m.entries()]
is the list itself; new Map(entries) folds Map.set over the entries.
-/

/-- JS Map.get. -/
def mapGet {α : Type} (m : List (String × α)) (k : String) : Option α :=
  (m.find? (fun p => p.1 == k)).map (fun p => p.2)

/-- JS Map.set: update in place if the key is present, else append. -/
def mapSet {α : Type} (m : List (String × α)) (k : String) (v : α) :
    List (String × α) :=
  if m.any (fun p => p.1 == k) then
    m.map (fun p => if p.1 == k then (k, v) else p)
  else m ++ [(k, v)]

/-- JS new Map(entries). -/
def mapOfList {α : Type} (l : List (String × α)) : List (String × α) :=
  l.foldl (fun m p => mapSet m p.1 p.2) []

/-- Keys of a map, in order. -/
def mapKeys {α : Type} (m : List (String × α)) : List String :=
  m.map Prod.fst

/-- The key lists built by Map.set alone never contain duplicates; this
predicate captures that well-formedness of a map value. -/
def NodupKeys {α : Type} (m : List (String × α)) : Prop :=
  (mapKeys m).Nodup

instance {α : Type} (m : List (String × α)) : Decidable (NodupKeys m) := by
  unfold NodupKeys
  infer_instance

/-! ### The TF-IDF vectorizer state

Embedding of the three private fields of class TfIdfVectorizer:
vocab (token → index), df (token → document frequency), totalDocs.
-/

/-- The trainable state of TfIdfVectorizer. -/
structure VecState where
  vocab : List (String × Nat)
  df : List (String × Nat)
  totalDocs : Nat
deriving DecidableEq, Repr

/-- A freshly constructed TfIdfVectorizer. -/
def VecState.empty : VecState := ⟨[], [], 0⟩

/-- First-occurrence deduplication: the iteration order of
new Set(tokenize(doc)) (JS Sets iterate in insertion order, so each
token appears at its first occurrence). -/
def dedupFirst : List String → List String
  | [] => []
  | t :: ts =>
    have hb : (ts.filter (fun u => u ≠ t)).length < ts.length + 1 := by
      have := ts.length_filter_le (fun u => u ≠ t)
      omega
    t :: dedupFirst (ts.filter (fun u => u ≠ t))
termination_by ts => ts.length
decreasing_by
  simp only [List.length_cons]
  omega

/-- One token's update inside addDocuments: increment the token's
document frequency, then assign a fresh vocabulary index (the current
vocabulary size) if the token is new. -/
def trainToken (st : VecState) (t : String) : VecState :=
  let st1 : VecState := { st with df := mapSet st.df t ((mapGet st.df t).getD 0 + 1) }
  match mapGet st1.vocab t with
  | some _ => st1
  | none => { st1 with vocab := mapSet st1.vocab t st1.vocab.length }

/-- Processing one document inside addDocuments: increment totalDocs,
then process the document's distinct token set. -/
def addDoc (s : VecState) (doc : String) : VecState :=
  (dedupFirst (tokenize doc)).foldl trainToken { s with totalDocs := s.totalDocs + 1 }

/-- Embedding of TfIdfVectorizer.addDocuments. -/
def addDocuments (s : VecState) (docs : List String) : VecState :=
  docs.foldl addDoc s

/-! ### Serialization

serialize() produces JSON.stringify of the triple
\x7b vocab: [...entries], df: [...entries], totalDocs \x7d, and
deserialize parses it back and rebuilds the two maps with new Map(...).
The JSON codec is an injective encoding of this triple (keys are token
strings, values are exact integers), so the persisted payload is
modelled as the triple of entry lists itself; deserialize then rebuilds
the maps by folding Map.set over the entry lists, exactly as
new Map(entries) does.
-/

/-- Payload written by TfIdfVectorizer.serialize. -/
structure SerializedState where
  vocab : List (String × Nat)
  df : List (String × Nat)
  totalDocs : Nat
deriving DecidableEq, Repr

/-- Embedding of TfIdfVectorizer.serialize. -/
def serialize (s : VecState) : SerializedState :=
  ⟨s.vocab, s.df, s.totalDocs⟩

/-- Embedding of TfIdfVectorizer.deserialize. -/
def deserialize (d : SerializedState) : VecState :=
  ⟨mapOfList d.vocab, mapOfList d.df, d.totalDocs⟩

/-! ### Map lemmas -/

theorem mapGet_eq_none_iff {α : Type} (m : List (String × α)) (k : String) :
    mapGet m k = none ↔ k ∉ mapKeys m := by
  unfold mapGet mapKeys
  rw [Option.map_eq_none', List.find?_eq_none]
  constructor
  · intro h hk
    obtain ⟨p, hp, hfst⟩ := List.mem_map.mp hk
    exact h p hp (by simp [hfst])
  · intro h p hp hpk
    exact h (List.mem_map.mpr ⟨p, hp, by simpa using hpk⟩)

theorem mem_of_mapGet_eq_some {α : Type} {m : List (String × α)} {k : String}
    {v : α} (h : mapGet m k = some v) : (k, v) ∈ m := by
  unfold mapGet at h
  obtain ⟨p, hp, hv⟩ := Option.map_eq_some'.mp h
  have h1 := List.find?_some hp
  have h2 := List.mem_of_find?_eq_some hp
  have : p = (k, v) := by
    obtain ⟨a, b⟩ := p
    simp at h1 hv
    simp [h1, hv]
  rwa [this] at h2

theorem any_keys_eq_false {α : Type} {m : List (String × α)} {k : String}
    (h : k ∉ mapKeys m) : m.any (fun p => p.1 == k) = false := by
  rw [List.any_eq_false]
  intro p hp hpk
  exact h (List.mem_map.mpr ⟨p, hp, by simpa using hpk⟩)

theorem mapSet_of_not_mem {α : Type} {m : List (String × α)} {k : String}
    (v : α) (h : k ∉ mapKeys m) : mapSet m k v = m ++ [(k, v)] := by
  unfold mapSet
  simp [any_keys_eq_false h]

theorem mapKeys_mapSet {α : Type} (m : List (String × α)) (k : String) (v : α) :
    mapKeys (mapSet m k v) =
      if k ∈ mapKeys m then mapKeys m else mapKeys m ++ [k] := by
  by_cases h : k ∈ mapKeys m
  · rw [if_pos h]
    obtain ⟨p, hp, hfst⟩ := List.mem_map.mp h
    have hany : m.any (fun q => q.1 == k) = true := by
      rw [List.any_eq_true]
      exact ⟨p, hp, by simpa using hfst⟩
    unfold mapSet
    simp only [hany, if_true]
    unfold mapKeys
    rw [List.map_map]
    apply List.map_congr_left
    intro q _
    by_cases hq : (q.1 == k) = true
    · simp only [Function.comp_apply, if_pos hq]
      exact (beq_iff_eq.mp hq).symm
    · simp only [Function.comp_apply, if_neg hq]
  · rw [if_neg h, mapSet_of_not_mem v h]
    unfold mapKeys
    simp

theorem nodupKeys_mapSet {α : Type} {m : List (String × α)} (k : String) (v : α)
    (h : NodupKeys m) : NodupKeys (mapSet m k v) := by
  unfold NodupKeys at *
  rw [mapKeys_mapSet]
  by_cases hk : k ∈ mapKeys m
  · rwa [if_pos hk]
  · rw [if_neg hk]
    simpa [List.nodup_append] using ⟨h, hk⟩

theorem find?_mapSet_update {α : Type} (m : List (String × α)) (k : String) (v : α) :
    List.find? (fun p => p.1 == k) (m.map (fun p => if p.1 == k then (k, v) else p)) =
      if m.any (fun p => p.1 == k) then some (k, v) else none := by
  induction m with
  | nil => simp
  | cons q m ih =>
    by_cases hq : (q.1 == k) = true
    · simp only [List.map_cons, if_pos hq]
      simp only [List.find?_cons, List.any_cons, hq, Bool.true_or]
      simp
    · simp only [List.map_cons, if_neg hq]
      rw [Bool.not_eq_true] at hq
      simp only [List.find?_cons, List.any_cons, hq, Bool.false_or]
      exact ih

theorem find?_mapSet_other {α : Type} (m : List (String × α)) (k k' : String) (v : α)
    (h : k' ≠ k) :
    List.find? (fun p => p.1 == k') (m.map (fun p => if p.1 == k then (k, v) else p)) =
      List.find? (fun p => p.1 == k') m := by
  induction m with
  | nil => simp
  | cons q m ih =>
    by_cases hq : (q.1 == k) = true
    · have hqk : q.1 = k := beq_iff_eq.mp hq
      have hkk' : (k == k') = false := by
        simp only [beq_eq_false_iff_ne, ne_eq]
        exact fun hh => h hh.symm
      simp only [List.map_cons, if_pos hq]
      simp only [List.find?_cons, hkk']
      have hq1 : (q.1 == k') = false := by rw [hqk]; exact hkk'
      simp only [hq1]
      exact ih
    · simp only [List.map_cons, if_neg hq]
      by_cases hq' : (q.1 == k') = true
      · simp only [List.find?_cons, hq']
      · rw [Bool.not_eq_true] at hq'
        simp only [List.find?_cons, hq']
        exact ih

theorem mapGet_mapSet_self {α : Type} (m : List (String × α)) (k : String) (v : α) :
    mapGet (mapSet m k v) k = some v := by
  unfold mapSet
  by_cases h : m.any (fun p => p.1 == k) = true
  · rw [if_pos h]
    unfold mapGet
    rw [find?_mapSet_update, if_pos h]
    rfl
  · rw [if_neg h]
    unfold mapGet
    rw [List.find?_append]
    have hm : m.find? (fun p => p.1 == k) = none := by
      rw [List.find?_eq_none]
      intro p hp hpk
      exact h (by rw [List.any_eq_true]; exact ⟨p, hp, hpk⟩)
    rw [hm]
    simp

theorem mapGet_mapSet_ne {α : Type} (m : List (String × α)) (k k' : String)
    (v : α) (h : k' ≠ k) : mapGet (mapSet m k v) k' = mapGet m k' := by
  unfold mapSet
  by_cases hp : m.any (fun p => p.1 == k) = true
  · rw [if_pos hp]
    unfold mapGet
    rw [find?_mapSet_other m k k' v h]
  · rw [if_neg hp]
    unfold mapGet
    rw [List.find?_append]
    have hone : List.find? (fun p => p.1 == k') [(k, v)] = none := by
      rw [List.find?_eq_none]
      intro p hp hpk
      simp at hp
      rw [hp] at hpk
      simp at hpk
      exact h hpk.symm
    rw [hone]
    simp

theorem length_mapSet_of_not_mem {α : Type} {m : List (String × α)} {k : String}
    (v : α) (h : k ∉ mapKeys m) : (mapSet m k v).length = m.length + 1 := by
  rw [mapSet_of_not_mem v h]
  simp

theorem mapOfList_aux {α : Type} :
    ∀ (l acc : List (String × α)), (mapKeys acc ++ mapKeys l).Nodup →
      l.foldl (fun m p => mapSet m p.1 p.2) acc = acc ++ l := by
  intro l
  induction l with
  | nil => intro acc _; simp
  | cons p rest ih =>
    intro acc hnd
    have hp : p.1 ∉ mapKeys acc := by
      intro hmem
      rw [List.nodup_append] at hnd
      exact hnd.2.2 hmem (by simp [mapKeys])
    simp only [List.foldl_cons]
    rw [mapSet_of_not_mem p.2 hp]
    have : acc ++ [(p.1, p.2)] = acc ++ [p] := by simp
    rw [this]
    rw [ih (acc ++ [p]) (by
      simp only [mapKeys, List.map_append, List.map_cons] at hnd ⊢
      simpa using hnd)]
    simp

theorem mapOfList_eq_self {α : Type} (l : List (String × α)) (h : NodupKeys l) :
    mapOfList l = l := by
  unfold mapOfList
  rw [mapOfList_aux l [] (by simpa [mapKeys] using h)]
  simp

theorem mapGet_isSome_of_mem_keys {α : Type} {m : List (String × α)} {k : String}
    (h : k ∈ mapKeys m) : (mapGet m k).isSome = true := by
  cases hg : mapGet m k with
  | some v => rfl
  | none => exact absurd ((mapGet_eq_none_iff m k).mp hg) (by simpa using h)

/-! ### Well-formedness of the vectorizer state

The corpus-state invariants stated by the specification: both maps have
unique keys, the vocabulary indices are exactly 0, 1, ..., size-1 in
insertion order (dense and contiguous), and every document frequency is
at most totalDocs.
-/

/-- Corpus-state invariant. -/
def Wf (s : VecState) : Prop :=
  NodupKeys s.vocab ∧ NodupKeys s.df ∧
    s.vocab.map Prod.snd = List.range s.vocab.length ∧
    ∀ p ∈ s.df, p.2 ≤ s.totalDocs

instance (s : VecState) : Decidable (Wf s) := by
  unfold Wf
  infer_instance

theorem wf_empty : Wf VecState.empty := by decide

/-! ### Lemmas about one training step (trainToken) -/

theorem trainToken_vocab_preserved {st : VecState} {u : String} {i : Nat}
    (t : String) (h : mapGet st.vocab u = some i) :
    mapGet (trainToken st t).vocab u = some i := by
  unfold trainToken
  by_cases hut : u = t
  · subst hut
    simp only
    rw [h]
    exact h
  · simp only
    cases hg : mapGet st.vocab t with
    | some j => simpa using h
    | none => simpa [mapGet_mapSet_ne _ _ _ _ hut] using h

theorem trainToken_vocab_length {st : VecState} (t : String) :
    st.vocab.length ≤ (trainToken st t).vocab.length := by
  unfold trainToken
  simp only
  cases hg : mapGet st.vocab t with
  | some j => simp
  | none =>
    simp only
    rw [mapSet_of_not_mem _ (by
      intro hm
      have := mapGet_isSome_of_mem_keys hm
      rw [hg] at this
      simp at this)]
    simp

theorem trainToken_totalDocs (st : VecState) (t : String) :
    (trainToken st t).totalDocs = st.totalDocs := by
  unfold trainToken
  simp only
  cases mapGet st.vocab t <;> rfl

theorem trainToken_df_self (st : VecState) (t : String) :
    mapGet (trainToken st t).df t = some ((mapGet st.df t).getD 0 + 1) := by
  unfold trainToken
  simp only
  cases mapGet st.vocab t <;> simp [mapGet_mapSet_self]

theorem trainToken_df_other {st : VecState} {u : String} (t : String)
    (h : u ≠ t) : mapGet (trainToken st t).df u = mapGet st.df u := by
  unfold trainToken
  simp only
  cases mapGet st.vocab t <;> simp [mapGet_mapSet_ne _ _ _ _ h]

theorem trainToken_vocab_self (st : VecState) (t : String) :
    (mapGet (trainToken st t).vocab t).isSome = true := by
  unfold trainToken
  simp only
  cases hg : mapGet st.vocab t with
  | some j => simp [hg]
  | none => simp [mapGet_mapSet_self]

theorem trainToken_nodup_vocab {st : VecState} (t : String)
    (h : NodupKeys st.vocab) : NodupKeys (trainToken st t).vocab := by
  unfold trainToken
  simp only
  cases mapGet st.vocab t with
  | some j => exact h
  | none => exact nodupKeys_mapSet _ _ h

theorem trainToken_nodup_df {st : VecState} (t : String)
    (h : NodupKeys st.df) : NodupKeys (trainToken st t).df := by
  unfold trainToken
  simp only
  cases mapGet st.vocab t <;> exact nodupKeys_mapSet _ _ h

theorem trainToken_vocab_dense {st : VecState} (t : String)
    (h : st.vocab.map Prod.snd = List.range st.vocab.length) :
    (trainToken st t).vocab.map Prod.snd =
      List.range (trainToken st t).vocab.length := by
  unfold trainToken
  simp only
  cases hg : mapGet st.vocab t with
  | some j => exact h
  | none =>
    have hnm : t ∉ mapKeys st.vocab := by
      intro hm
      have := mapGet_isSome_of_mem_keys hm
      rw [hg] at this
      simp at this
    rw [mapSet_of_not_mem _ hnm]
    simp only [List.map_append, List.length_append, List.map_cons, List.map_nil,
      List.length_cons, List.length_nil]
    rw [h]
    have : st.vocab.length + (0 + 1) = st.vocab.length + 1 := by omega
    rw [this, List.range_succ]

theorem mem_mapSet {α : Type} {m : List (String × α)} {k : String} {v : α}
    {q : String × α} (h : q ∈ mapSet m k v) : q = (k, v) ∨ q ∈ m := by
  unfold mapSet at h
  by_cases hany : m.any (fun p => p.1 == k) = true
  · rw [if_pos hany] at h
    obtain ⟨p, hp, hq⟩ := List.mem_map.mp h
    by_cases hpk : (p.1 == k) = true
    · rw [if_pos hpk] at hq
      exact Or.inl hq.symm
    · rw [if_neg hpk] at hq
      exact Or.inr (hq ▸ hp)
  · rw [if_neg hany] at h
    rcases List.mem_append.mp h with h1 | h1
    · exact Or.inr h1
    · simp at h1
      exact Or.inl (by simp [h1])

theorem mem_dedupFirst_aux :
    ∀ (n : Nat) (ts : List String), ts.length ≤ n →
      ∀ (u : String), u ∈ dedupFirst ts ↔ u ∈ ts := by
  intro n
  induction n with
  | zero =>
    intro ts hts u
    have : ts = [] := List.eq_nil_of_length_eq_zero (Nat.le_zero.mp hts)
    subst this
    rw [dedupFirst]
  | succ n ih =>
    intro ts hts u
    cases ts with
    | nil => rw [dedupFirst]
    | cons t rest =>
      rw [dedupFirst]
      have hlen : (rest.filter (fun v => v ≠ t)).length ≤ n := by
        have := rest.length_filter_le (fun v => v ≠ t)
        simp only [List.length_cons] at hts
        omega
      have ihr := ih (rest.filter (fun v => v ≠ t)) hlen u
      constructor
      · intro h
        rcases List.mem_cons.mp h with h1 | h1
        · exact h1 ▸ List.mem_cons_self _ _
        · exact List.mem_cons_of_mem _ (List.mem_of_mem_filter (ihr.mp h1))
      · intro h
        rcases List.mem_cons.mp h with h1 | h1
        · exact h1 ▸ List.mem_cons_self _ _
        · by_cases hut : u = t
          · exact hut ▸ List.mem_cons_self _ _
          · exact List.mem_cons_of_mem _
              (ihr.mpr (List.mem_filter.mpr ⟨h1, by simpa using hut⟩))

theorem mem_dedupFirst (ts : List String) (u : String) :
    u ∈ dedupFirst ts ↔ u ∈ ts :=
  mem_dedupFirst_aux ts.length ts (Nat.le_refl _) u

theorem dedupFirst_nodup_aux :
    ∀ (n : Nat) (ts : List String), ts.length ≤ n → (dedupFirst ts).Nodup := by
  intro n
  induction n with
  | zero =>
    intro ts hts
    have : ts = [] := List.eq_nil_of_length_eq_zero (Nat.le_zero.mp hts)
    subst this
    rw [dedupFirst]
    simp
  | succ n ih =>
    intro ts hts
    cases ts with
    | nil => rw [dedupFirst]; simp
    | cons t rest =>
      rw [dedupFirst]
      refine List.nodup_cons.mpr ⟨?_, ?_⟩
      · intro hmem
        have h1 := (mem_dedupFirst _ _).mp hmem
        have := List.of_mem_filter h1
        simp at this
      · apply ih
        have := rest.length_filter_le (fun u => u ≠ t)
        simp only [List.length_cons] at hts
        omega

theorem dedupFirst_nodup (ts : List String) : (dedupFirst ts).Nodup :=
  dedupFirst_nodup_aux ts.length ts (Nat.le_refl _)

/-! ### Lemmas about folding trainToken over a token list -/

theorem foldTokens_vocab_preserved {u : String} {i : Nat} :
    ∀ (ts : List String) (st : VecState), mapGet st.vocab u = some i →
      mapGet (ts.foldl trainToken st).vocab u = some i := by
  intro ts
  induction ts with
  | nil => intro st h; exact h
  | cons t ts ih =>
    intro st h
    exact ih _ (trainToken_vocab_preserved t h)

theorem foldTokens_vocab_isSome {u : String} :
    ∀ (ts : List String) (st : VecState), (mapGet st.vocab u).isSome = true →
      (mapGet (ts.foldl trainToken st).vocab u).isSome = true := by
  intro ts st h
  cases hg : mapGet st.vocab u with
  | none => rw [hg] at h; simp at h
  | some i => rw [foldTokens_vocab_preserved ts st hg]; rfl

theorem foldTokens_vocab_length :
    ∀ (ts : List String) (st : VecState),
      st.vocab.length ≤ ((ts.foldl trainToken st)).vocab.length := by
  intro ts
  induction ts with
  | nil => intro st; simp
  | cons t ts ih =>
    intro st
    exact Nat.le_trans (trainToken_vocab_length t) (ih (trainToken st t))

theorem foldTokens_totalDocs :
    ∀ (ts : List String) (st : VecState),
      (ts.foldl trainToken st).totalDocs = st.totalDocs := by
  intro ts
  induction ts with
  | nil => intro st; rfl
  | cons t ts ih =>
    intro st
    rw [List.foldl_cons, ih, trainToken_totalDocs]

theorem foldTokens_nodup_vocab :
    ∀ (ts : List String) (st : VecState), NodupKeys st.vocab →
      NodupKeys (ts.foldl trainToken st).vocab := by
  intro ts
  induction ts with
  | nil => intro st h; exact h
  | cons t ts ih => intro st h; exact ih _ (trainToken_nodup_vocab t h)

theorem foldTokens_nodup_df :
    ∀ (ts : List String) (st : VecState), NodupKeys st.df →
      NodupKeys (ts.foldl trainToken st).df := by
  intro ts
  induction ts with
  | nil => intro st h; exact h
  | cons t ts ih => intro st h; exact ih _ (trainToken_nodup_df t h)

theorem foldTokens_vocab_dense :
    ∀ (ts : List String) (st : VecState),
      st.vocab.map Prod.snd = List.range st.vocab.length →
      (ts.foldl trainToken st).vocab.map Prod.snd =
        List.range (ts.foldl trainToken st).vocab.length := by
  intro ts
  induction ts with
  | nil => intro st h; exact h
  | cons t ts ih => intro st h; exact ih _ (trainToken_vocab_dense t h)

theorem foldTokens_coverage :
    ∀ (ts : List String) (st : VecState) (t : String), t ∈ ts →
      (mapGet (ts.foldl trainToken st).vocab t).isSome = true := by
  intro ts
  induction ts with
  | nil => intro st t h; cases h
  | cons t' ts ih =>
    intro st t h
    rcases List.mem_cons.mp h with h1 | h1
    · subst h1
      exact foldTokens_vocab_isSome ts _ (trainToken_vocab_self st t)
    · exact ih _ t h1

theorem foldTokens_df_mono {u : String} :
    ∀ (ts : List String) (st : VecState) (d : Nat), mapGet st.df u = some d →
      ∃ d', mapGet (ts.foldl trainToken st).df u = some d' ∧ d ≤ d' := by
  intro ts
  induction ts with
  | nil => intro st d h; exact ⟨d, h, Nat.le_refl _⟩
  | cons t ts ih =>
    intro st d h
    by_cases hut : u = t
    · subst hut
      have hd := trainToken_df_self st u
      rw [h] at hd
      simp only [Option.getD_some] at hd
      obtain ⟨d', hd', hle⟩ := ih (trainToken st u) (d + 1) hd
      exact ⟨d', hd', by omega⟩
    · rw [List.foldl_cons]
      obtain ⟨d', hd', hle⟩ := ih (trainToken st t) d
        (by rw [trainToken_df_other t hut]; exact h)
      exact ⟨d', hd', hle⟩

theorem foldTokens_df_bound :
    ∀ (ts : List String) (st : VecState) (D : Nat), ts.Nodup →
      (∀ p ∈ st.df, p.2 ≤ D) →
      (∀ u ∈ ts, (mapGet st.df u).getD 0 < D) →
      ∀ p ∈ (ts.foldl trainToken st).df, p.2 ≤ D := by
  intro ts
  induction ts with
  | nil => intro st D _ ha _; exact ha
  | cons t ts ih =>
    intro st D hnd ha hb
    rw [List.foldl_cons]
    have hnd' := List.nodup_cons.mp hnd
    apply ih (trainToken st t) D hnd'.2
    · intro p hp
      have hmem : p ∈ mapSet st.df t ((mapGet st.df t).getD 0 + 1) := by
        simp only [trainToken] at hp
        revert hp
        cases mapGet st.vocab t <;> (intro hp; exact hp)
      rcases mem_mapSet hmem with h1 | h1
      · rw [h1]
        have := hb t (List.mem_cons_self _ _)
        simp only
        omega
      · exact ha p h1
    · intro u hu
      have hut : u ≠ t := fun he => hnd'.1 (he ▸ hu)
      rw [trainToken_df_other t hut]
      exact hb u (List.mem_cons_of_mem _ hu)

/-! ### Lemmas about addDoc and addDocuments -/

theorem addDoc_vocab_preserved {u : String} {i : Nat} (s : VecState) (doc : String)
    (h : mapGet s.vocab u = some i) : mapGet (addDoc s doc).vocab u = some i :=
  foldTokens_vocab_preserved _ _ h

theorem addDoc_totalDocs (s : VecState) (doc : String) :
    (addDoc s doc).totalDocs = s.totalDocs + 1 :=
  foldTokens_totalDocs _ _

theorem addDoc_wf (s : VecState) (doc : String) (h : Wf s) : Wf (addDoc s doc) := by
  obtain ⟨h1, h2, h3, h4⟩ := h
  refine ⟨foldTokens_nodup_vocab _ _ h1, foldTokens_nodup_df _ _ h2,
    foldTokens_vocab_dense _ _ h3, ?_⟩
  have hD : (addDoc s doc).totalDocs = s.totalDocs + 1 := addDoc_totalDocs s doc
  rw [hD]
  apply foldTokens_df_bound _ _ (s.totalDocs + 1) (dedupFirst_nodup _)
  · intro p hp
    have := h4 p hp
    omega
  · intro u _
    cases hg : mapGet s.df u with
    | none => simp
    | some d =>
      have := h4 (u, d) (mem_of_mapGet_eq_some hg)
      simp only [Option.getD_some]
      omega

theorem addDocuments_vocab_preserved {u : String} {i : Nat} :
    ∀ (docs : List String) (s : VecState), mapGet s.vocab u = some i →
      mapGet (addDocuments s docs).vocab u = some i := by
  intro docs
  induction docs with
  | nil => intro s h; exact h
  | cons d ds ih => intro s h; exact ih _ (addDoc_vocab_preserved s d h)

theorem addDocuments_wf :
    ∀ (docs : List String) (s : VecState), Wf s → Wf (addDocuments s docs) := by
  intro docs
  induction docs with
  | nil => intro s h; exact h
  | cons d ds ih => intro s h; exact ih _ (addDoc_wf s d h)

theorem addDocuments_vocab_length :
    ∀ (docs : List String) (s : VecState),
      s.vocab.length ≤ (addDocuments s docs).vocab.length := by
  intro docs
  induction docs with
  | nil => intro s; simp [addDocuments]
  | cons d ds ih =>
    intro s
    have h1 : s.vocab.length ≤ (addDoc s d).vocab.length :=
      foldTokens_vocab_length (dedupFirst (tokenize d))
        { s with totalDocs := s.totalDocs + 1 }
    exact Nat.le_trans h1 (ih (addDoc s d))

theorem addDocuments_totalDocs_mono :
    ∀ (docs : List String) (s : VecState),
      s.totalDocs ≤ (addDocuments s docs).totalDocs := by
  intro docs
  induction docs with
  | nil => intro s; simp [addDocuments]
  | cons d ds ih =>
    intro s
    have h1 := addDoc_totalDocs s d
    have h2 := ih (addDoc s d)
    have h3 : addDocuments s (d :: ds) = addDocuments (addDoc s d) ds := rfl
    rw [h3]
    omega

theorem addDocuments_df_mono {u : String} :
    ∀ (docs : List String) (s : VecState) (d : Nat), mapGet s.df u = some d →
      ∃ d', mapGet (addDocuments s docs).df u = some d' ∧ d ≤ d' := by
  intro docs
  induction docs with
  | nil => intro s d h; exact ⟨d, h, Nat.le_refl _⟩
  | cons dc ds ih =>
    intro s d h
    obtain ⟨d1, hd1, hle1⟩ := foldTokens_df_mono (dedupFirst (tokenize dc))
      { s with totalDocs := s.totalDocs + 1 } d h
    obtain ⟨d2, hd2, hle2⟩ := ih (addDoc s dc) d1 hd1
    exact ⟨d2, hd2, Nat.le_trans hle1 hle2⟩

theorem addDocuments_vocab_isSome {u : String} :
    ∀ (docs : List String) (s : VecState), (mapGet s.vocab u).isSome = true →
      (mapGet (addDocuments s docs).vocab u).isSome = true := by
  intro docs
  induction docs with
  | nil => intro s h; exact h
  | cons d ds ih =>
    intro s h
    exact ih _ (foldTokens_vocab_isSome _ _ h)

theorem addDocuments_coverage :
    ∀ (docs : List String) (s : VecState) (doc : String), doc ∈ docs →
      ∀ t ∈ tokenize doc,
        (mapGet (addDocuments s docs).vocab t).isSome = true := by
  intro docs
  induction docs with
  | nil => intro s doc h; cases h
  | cons d ds ih =>
    intro s doc hdoc t ht
    rcases List.mem_cons.mp hdoc with h1 | h1
    · subst h1
      apply addDocuments_vocab_isSome ds (addDoc s doc)
      exact foldTokens_coverage _ _ t ((mem_dedupFirst _ t).mpr ht)
    · exact ih (addDoc s d) doc h1 t ht

theorem vocab_index_lt {s : VecState} {t : String} {i : Nat}
    (hd : s.vocab.map Prod.snd = List.range s.vocab.length)
    (h : mapGet s.vocab t = some i) : i < s.vocab.length := by
  have hmem : (t, i) ∈ s.vocab := mem_of_mapGet_eq_some h
  have : i ∈ s.vocab.map Prod.snd := List.mem_map.mpr ⟨(t, i), hmem, rfl⟩
  rw [hd] at this
  exact List.mem_range.mp this

/-! ### The embedding computation (TfIdfVectorizer.embed)

Floating-point weights are modelled as real numbers; Math.log is
Real.log and Math.sqrt is Real.sqrt, so the weight layer is
noncomputable while every state-level definition above stays
executable.
-/

/-- An embedding vector: data array and its dimension, mirroring the
source interface EmbeddingVector. -/
structure EmbeddingVector where
  data : List ℝ
  dim : Nat

/-- Entries of the term-frequency map built by the loop
for (const t of tokens) tf.set(t, (tf.get(t) || 0) + 1) :
iteration order of a JS Map is insertion order, so the entries are the
distinct tokens in first-occurrence order, each with its final count. -/
def tfEntries (tokens : List String) : List (String × Nat) :=
  (dedupFirst tokens).map (fun t => (t, tokens.count t))

/-- The document frequency used for a token in embed:
this.df.get(token) || 1 (a missing entry and the falsy value 0 both
give 1). -/
def docFreqVal (s : VecState) (t : String) : Nat :=
  match mapGet s.df t with
  | some d => if d = 0 then 1 else d
  | none => 1

/-- The idf factor Math.log(1 + this.totalDocs / docFreq). -/
noncomputable def idfVal (s : VecState) (t : String) : ℝ :=
  Real.log (1 + (s.totalDocs : ℝ) / (docFreqVal s t : ℝ))

/-- The denominator const totalTerms = tokens.length || 1. -/
def totalTermsOf (tokens : List String) : Nat :=
  if tokens.length = 0 then 1 else tokens.length

/-- The pre-normalization weight vector built by the loop
for (const [token, count] of tf) \x7b ... vec[idx] = termFreq * idf \x7d :
starting from a zero vector of the current dimension, each in-vocabulary
entry writes its weight at its vocabulary index; out-of-vocabulary
entries are skipped. -/
noncomputable def preVec (s : VecState) (tokens : List String) : List ℝ :=
  (tfEntries tokens).foldl
    (fun v p =>
      match mapGet s.vocab p.1 with
      | none => v
      | some idx =>
        v.set idx (((p.2 : ℝ) / (totalTermsOf tokens : ℝ)) * idfVal s p.1))
    (List.replicate s.vocab.length (0 : ℝ))

/-- Sum of squares of the entries (the loop norm += vec[i] * vec[i]). -/
def l2normSq (v : List ℝ) : ℝ :=
  (v.map (fun x => x * x)).sum

/-- Embedding of TfIdfVectorizer.embed. -/
noncomputable def embed (s : VecState) (text : String) : EmbeddingVector :=
  if s.vocab.length = 0 then ⟨[], 0⟩
  else
    let v := preVec s (tokenize text)
    let norm := Real.sqrt (l2normSq v)
    ⟨if 0 < norm then v.map (fun x => x / norm) else v, s.vocab.length⟩

/-- Dot product over the shared prefix (the loop bounded by
minDim = Math.min(a.data.length, b.data.length)). -/
def dotPrefix (a b : List ℝ) : ℝ :=
  ((a.zip b).map (fun p => p.1 * p.2)).sum

/-- Embedding of TfIdfVectorizer.cosineSimilarity. -/
noncomputable def cosineSimilarity (a b : EmbeddingVector) : ℝ :=
  if a.dim = 0 ∨ b.dim = 0 then 0
  else dotPrefix a.data b.data

/-! ### Norm lemmas -/

theorem length_preVec (s : VecState) (tokens : List String) :
    (preVec s tokens).length = s.vocab.length := by
  unfold preVec
  generalize (tfEntries tokens) = entries
  generalize hinit : List.replicate s.vocab.length (0 : ℝ) = init
  have hlen : init.length = s.vocab.length := by rw [← hinit]; simp
  clear hinit
  induction entries generalizing init with
  | nil => simpa using hlen
  | cons p rest ih =>
    rw [List.foldl_cons]
    cases mapGet s.vocab p.1 with
    | none => exact ih init hlen
    | some idx => exact ih _ (by simpa using hlen)

theorem l2normSq_nonneg (v : List ℝ) : 0 ≤ l2normSq v := by
  unfold l2normSq
  induction v with
  | nil => simp
  | cons x v ih =>
    simp only [List.map_cons, List.sum_cons]
    have := mul_self_nonneg x
    linarith

theorem eq_replicate_of_l2normSq_eq_zero {v : List ℝ} (h : l2normSq v = 0) :
    v = List.replicate v.length 0 := by
  induction v with
  | nil => simp
  | cons x v ih =>
    unfold l2normSq at h ih
    simp only [List.map_cons, List.sum_cons] at h
    have h1 : 0 ≤ x * x := mul_self_nonneg x
    have h2 : 0 ≤ (v.map (fun x => x * x)).sum := l2normSq_nonneg v
    have hx : x * x = 0 := by linarith
    have hx0 : x = 0 := by
      rcases mul_self_eq_zero.mp hx with h
      exact h
    have hv : (v.map (fun x => x * x)).sum = 0 := by linarith
    simp only [List.length_cons, List.replicate_succ]
    rw [hx0, ih hv]
    simp

theorem l2normSq_smul_inv (v : List ℝ) (c : ℝ) :
    l2normSq (v.map (fun x => x / c)) = l2normSq v / (c * c) := by
  unfold l2normSq
  induction v with
  | nil => simp
  | cons x v ih =>
    simp only [List.map_cons, List.sum_cons]
    rw [ih, div_mul_div_comm, div_add_div_same]

theorem l2normSq_normalized {v : List ℝ} (h : 0 < l2normSq v) :
    l2normSq (v.map (fun x => x / Real.sqrt (l2normSq v))) = 1 := by
  rw [l2normSq_smul_inv]
  rw [Real.mul_self_sqrt (le_of_lt h)]
  exact div_self (ne_of_gt h)

theorem dotPrefix_self (v : List ℝ) : dotPrefix v v = l2normSq v := by
  unfold dotPrefix l2normSq
  induction v with
  | nil => simp
  | cons x v ih =>
    simp only [List.zip_cons_cons, List.map_cons, List.sum_cons]
    rw [ih]

/-- Core dichotomy of embed for a non-empty vocabulary: the returned data
has the vocabulary's length, the recorded dim is the vocabulary size, and
the vector either has Euclidean norm exactly 1 or is the all-zero vector. -/
theorem embed_dichotomy (s : VecState) (text : String) (h : s.vocab ≠ []) :
    (embed s text).data.length = s.vocab.length ∧
    (embed s text).dim = s.vocab.length ∧
    (Real.sqrt (l2normSq (embed s text).data) = 1 ∨
      (embed s text).data = List.replicate s.vocab.length 0) := by
  have hne : ¬ s.vocab.length = 0 := by
    intro h0
    exact h (List.eq_nil_of_length_eq_zero h0)
  have hrw : embed s text =
      ⟨if 0 < Real.sqrt (l2normSq (preVec s (tokenize text))) then
          (preVec s (tokenize text)).map
            (fun x => x / Real.sqrt (l2normSq (preVec s (tokenize text))))
        else preVec s (tokenize text), s.vocab.length⟩ := by
    unfold embed
    rw [if_neg hne]
  rw [hrw]
  set v := preVec s (tokenize text) with hv
  have hlen : v.length = s.vocab.length := length_preVec s (tokenize text)
  have hnn : 0 ≤ l2normSq v := l2normSq_nonneg v
  by_cases hz : l2normSq v = 0
  · have hnorm : Real.sqrt (l2normSq v) = 0 := by rw [hz, Real.sqrt_zero]
    rw [if_neg (by rw [hnorm]; exact lt_irrefl 0)]
    refine ⟨hlen, rfl, Or.inr ?_⟩
    rw [← hlen]
    exact eq_replicate_of_l2normSq_eq_zero hz
  · have hpos : 0 < l2normSq v := lt_of_le_of_ne hnn (Ne.symm hz)
    have hnorm : 0 < Real.sqrt (l2normSq v) := Real.sqrt_pos.mpr hpos
    rw [if_pos hnorm]
    refine ⟨by simpa using hlen, rfl, Or.inl ?_⟩
    rw [l2normSq_normalized hpos, Real.sqrt_one]

/-! ### Characterization of the pre-normalization weights -/

theorem snd_inj_of_nodup {l : List (String × Nat)} (h : (l.map Prod.snd).Nodup) :
    ∀ p ∈ l, ∀ q ∈ l, p.2 = q.2 → p = q := by
  induction l with
  | nil => simp
  | cons a l ih =>
    simp only [List.map_cons, List.nodup_cons] at h
    intro p hp q hq heq
    rcases List.mem_cons.mp hp with hp1 | hp1 <;>
      rcases List.mem_cons.mp hq with hq1 | hq1
    · rw [hp1, hq1]
    · exfalso
      rw [hp1] at heq
      exact h.1 (List.mem_map.mpr ⟨q, hq1, heq.symm⟩)
    · exfalso
      rw [hq1] at heq
      exact h.1 (List.mem_map.mpr ⟨p, hp1, heq⟩)
    · exact ih h.2 p hp1 q hq1 heq

theorem vocab_inj {s : VecState} (hwf : Wf s) {t₁ t₂ : String} {i : Nat}
    (h1 : mapGet s.vocab t₁ = some i) (h2 : mapGet s.vocab t₂ = some i) :
    t₁ = t₂ := by
  have hnd : (s.vocab.map Prod.snd).Nodup := by
    rw [hwf.2.2.1]
    exact List.nodup_range _
  have := snd_inj_of_nodup hnd (t₁, i) (mem_of_mapGet_eq_some h1)
    (t₂, i) (mem_of_mapGet_eq_some h2) rfl
  exact congrArg Prod.fst this

theorem find?_key_map (g : String → Nat) (l : List String) (t : String) :
    List.find? (fun p => p.1 == t) (l.map (fun u => (u, g u))) =
      (l.find? (fun u => u == t)).map (fun u => (u, g u)) := by
  induction l with
  | nil => simp
  | cons u l ih =>
    by_cases hu : (u == t) = true
    · simp only [List.map_cons, List.find?_cons, hu]
      simp
    · rw [Bool.not_eq_true] at hu
      simp only [List.map_cons, List.find?_cons, hu]
      exact ih

theorem find?_beq_self_of_mem {l : List String} {t : String} (h : t ∈ l) :
    l.find? (fun u => u == t) = some t := by
  induction l with
  | nil => cases h
  | cons u l ih =>
    by_cases hu : (u == t) = true
    · simp only [List.find?_cons, hu]
      rw [beq_iff_eq.mp hu]
    · have huf : (u == t) = false := Bool.not_eq_true _ ▸ (by simpa using hu)
      simp only [List.find?_cons, huf]
      rcases List.mem_cons.mp h with h1 | h1
      · exact absurd (by simp [h1] : (u == t) = true) hu
      · exact ih h1

theorem find?_beq_self_of_not_mem {l : List String} {t : String} (h : t ∉ l) :
    l.find? (fun u => u == t) = none := by
  rw [List.find?_eq_none]
  intro u hu hut
  exact h (beq_iff_eq.mp hut ▸ hu)

theorem tfEntries_keys (tokens : List String) :
    (tfEntries tokens).map Prod.fst = dedupFirst tokens := by
  unfold tfEntries
  rw [List.map_map]
  have hid : (Prod.fst ∘ fun t => (t, tokens.count t)) = id := by
    funext u
    rfl
  rw [hid, List.map_id]

theorem foldSet_get_hit (s : VecState) (w : String × Nat → ℝ) (hwf : Wf s) :
    ∀ (entries : List (String × Nat)) (init : List ℝ) (t : String) (i : Nat),
      mapGet s.vocab t = some i → i < init.length →
      (entries.map Prod.fst).Nodup →
      ((entries.foldl (fun v p =>
          match mapGet s.vocab p.1 with
          | none => v
          | some idx => v.set idx (w p)) init))[i]? =
        (match entries.find? (fun p => p.1 == t) with
         | some p => some (w p)
         | none => init[i]?) := by
  intro entries
  induction entries with
  | nil => intro init t i _ _ _; simp
  | cons p rest ih =>
    intro init t i hv hlen hnd
    simp only [List.map_cons, List.nodup_cons] at hnd
    rw [List.foldl_cons]
    by_cases hpt : (p.1 == t) = true
    · have hpt' : p.1 = t := beq_iff_eq.mp hpt
      simp only [List.find?_cons, hpt]
      have hvp : mapGet s.vocab p.1 = some i := by rw [hpt']; exact hv
      rw [hvp]
      have hfind : rest.find? (fun q => q.1 == t) = none := by
        rw [List.find?_eq_none]
        intro q hq hqt
        exact hnd.1 (by
          rw [hpt', ← beq_iff_eq.mp hqt]
          exact List.mem_map.mpr ⟨q, hq, rfl⟩)
      rw [ih (init.set i (w p)) t i hv (by simpa using hlen) hnd.2, hfind]
      simp only
      exact List.getElem?_set_self (by simpa using hlen)
    · have hptf : (p.1 == t) = false := by
        rw [← Bool.not_eq_true]
        exact hpt
      simp only [List.find?_cons, hptf]
      cases hvp : mapGet s.vocab p.1 with
      | none => exact ih init t i hv hlen hnd.2
      | some j =>
        have hij : i ≠ j := by
          intro he
          exact hpt (by
            rw [beq_iff_eq]
            exact vocab_inj hwf hvp (he ▸ hv))
        rw [ih (init.set j (w p)) t i hv (by simpa using hlen) hnd.2]
        cases hfind : rest.find? (fun q => q.1 == t) with
        | some q => simp
        | none =>
          simp only
          exact List.getElem?_set_ne (fun he => hij he.symm) 

theorem foldSet_get_miss (s : VecState) (w : String × Nat → ℝ) :
    ∀ (entries : List (String × Nat)) (init : List ℝ) (j : Nat),
      (∀ p ∈ entries, ∀ idx, mapGet s.vocab p.1 = some idx → idx ≠ j) →
      ((entries.foldl (fun v p =>
          match mapGet s.vocab p.1 with
          | none => v
          | some idx => v.set idx (w p)) init))[j]? = init[j]? := by
  intro entries
  induction entries with
  | nil => intro init j _; rfl
  | cons p rest ih =>
    intro init j hmiss
    rw [List.foldl_cons]
    cases hvp : mapGet s.vocab p.1 with
    | none => exact ih init j (fun q hq => hmiss q (List.mem_cons_of_mem _ hq))
    | some idx =>
      rw [ih _ j (fun q hq => hmiss q (List.mem_cons_of_mem _ hq))]
      exact List.getElem?_set_ne (hmiss p (List.mem_cons_self _ _) idx hvp)

theorem docFreqVal_eq_max (s : VecState) (t : String) :
    docFreqVal s t = max 1 ((mapGet s.df t).getD 0) := by
  unfold docFreqVal
  cases mapGet s.df t with
  | none => simp
  | some d =>
    simp only [Option.getD_some]
    by_cases hd : d = 0
    · subst hd; simp
    · rw [if_neg hd]
      omega

theorem weight_totalTerms_eq (s : VecState) (toks : List String) (t : String) :
    ((toks.count t : ℝ) / (totalTermsOf toks : ℝ)) * idfVal s t =
      ((toks.count t : ℝ) / (toks.length : ℝ)) * idfVal s t := by
  by_cases ht : t ∈ toks
  · have hlen : toks.length ≠ 0 := by
      intro h0
      rw [List.eq_nil_of_length_eq_zero h0] at ht
      cases ht
    unfold totalTermsOf
    rw [if_neg hlen]
  · rw [List.count_eq_zero.mpr ht]
    simp

/-- The pre-normalization weight at the vocabulary index of token t is
termFrequency times idf (0 when the token does not occur, with the
convention 0 / 0 = 0 covering an empty tokenized input). -/
theorem preVec_get (s : VecState) (toks : List String) (hwf : Wf s)
    (t : String) (i : Nat) (hv : mapGet s.vocab t = some i) :
    (preVec s toks)[i]? =
      some (((toks.count t : ℝ) / (toks.length : ℝ)) * idfVal s t) := by
  have hilt : i < s.vocab.length := vocab_index_lt hwf.2.2.1 hv
  unfold preVec
  have hkeys : ((tfEntries toks).map Prod.fst).Nodup := by
    rw [tfEntries_keys]
    exact dedupFirst_nodup toks
  rw [foldSet_get_hit s _ hwf (tfEntries toks)
    (List.replicate s.vocab.length (0 : ℝ)) t i hv (by simpa using hilt) hkeys]
  unfold tfEntries
  rw [find?_key_map]
  by_cases ht : t ∈ toks
  · rw [find?_beq_self_of_mem ((mem_dedupFirst toks t).mpr ht)]
    simp only [Option.map]
    rw [weight_totalTerms_eq]
  · rw [find?_beq_self_of_not_mem (fun hm => ht ((mem_dedupFirst toks t).mp hm))]
    simp only [Option.map]
    rw [List.count_eq_zero.mpr ht]
    rw [List.getElem?_replicate_of_lt hilt]
    simp

/-- Vocabulary indices that no input token maps to keep their initial
weight 0. -/
theorem preVec_get_zero (s : VecState) (toks : List String)
    (j : Nat) (hj : j < s.vocab.length)
    (hmiss : ∀ u, mapGet s.vocab u = some j → u ∉ toks) :
    (preVec s toks)[j]? = some 0 := by
  unfold preVec
  rw [foldSet_get_miss s _ (tfEntries toks)
    (List.replicate s.vocab.length (0 : ℝ)) j ?_]
  · exact List.getElem?_replicate_of_lt hj
  · intro p hp idx hidx he
    subst he
    have hkey : p.1 ∈ dedupFirst toks := by
      have hm : p.1 ∈ (tfEntries toks).map Prod.fst := List.mem_map.mpr ⟨p, hp, rfl⟩
      rwa [tfEntries_keys] at hm
    exact hmiss p.1 hidx ((mem_dedupFirst toks p.1).mp hkey)

/-! ### The code chunker (chunkCode)

Lines are lists of characters (source.split("\n")); String.prototype.trim
is modelled on the ASCII whitespace fragment. The declaration regexes are
compiled into prefix scanners; each scanner documents the regex. The
optional keyword groups (export, abstract, async, const|let|var) are
consumed greedily without a backtracking case split because no keyword is
a prefix of what must follow it, so the greedy parse and the regex agree.
-/

/-- Lines of a source text, for source.split("\n"). -/
def splitLines (source : String) : List (List Char) :=
  source.data.splitOn '\n'

/-- String.prototype.trim on a character list. -/
def trimChars (l : List Char) : List Char :=
  ((l.dropWhile jsWs).reverse.dropWhile jsWs).reverse

/-- Consume a literal prefix. -/
def dropLit : List Char → List Char → Option (List Char)
  | [], s => some s
  | _ :: _, [] => none
  | c :: lit, x :: xs => if x == c then dropLit lit xs else none

/-- Consume at least one whitespace character, then any further
whitespace (the regex \s+). -/
def ws1 (s : List Char) : Option (List Char) :=
  match s with
  | [] => none
  | c :: r => if jsWs c then some (r.dropWhile jsWs) else none

/-- Consume an optional keyword followed by \s+ (a regex group like
(?:export\s+)?). If the keyword is present but no whitespace follows,
the group matches empty, which is modelled by falling back to the
original input. -/
def optKwWs (kw : List Char) (s : List Char) : List Char :=
  match dropLit kw s with
  | some r =>
    match ws1 r with
    | some r2 => r2
    | none => s
  | none => s

/-- Maximal \w+ prefix and the remainder. -/
def takeWord (s : List Char) : List Char × List Char :=
  (s.takeWhile isWordChar, s.dropWhile isWordChar)

/-- Matcher for /^(?:export\s+)?(?:type|interface)\s+(\w+)/ returning
the captured name. -/
def typeMatch (t : List Char) : Option String :=
  let s := optKwWs "export".data t
  let s2 :=
    match dropLit "type".data s with
    | some r => some r
    | none => dropLit "interface".data s
  match s2 with
  | none => none
  | some r =>
    match ws1 r with
    | none => none
    | some r2 =>
      let w := (takeWord r2).1
      if w.isEmpty then none else some (String.mk w)

/-- Matcher for /^(?:export\s+)?(?:abstract\s+)?class\s+(\w+)/. -/
def classMatch (t : List Char) : Option String :=
  let s := optKwWs "abstract".data (optKwWs "export".data t)
  match dropLit "class".data s with
  | none => none
  | some r =>
    match ws1 r with
    | none => none
    | some r2 =>
      let w := (takeWord r2).1
      if w.isEmpty then none else some (String.mk w)

/-- Matcher for /^(?:export\s+)?(?:async\s+)?function\s+(\w+)/. -/
def funcMatch (t : List Char) : Option String :=
  let s := optKwWs "async".data (optKwWs "export".data t)
  match dropLit "function".data s with
  | none => none
  | some r =>
    match ws1 r with
    | none => none
    | some r2 =>
      let w := (takeWord r2).1
      if w.isEmpty then none else some (String.mk w)

/-- The alternation (?:const|let|var). -/
def kwVar (s : List Char) : Option (List Char) :=
  match dropLit "const".data s with
  | some r => some r
  | none =>
    match dropLit "let".data s with
    | some r => some r
    | none => dropLit "var".data s

/-- Matcher for
/^(?:export\s+)?(?:const|let|var)\s+(\w+)\s*(?::\s*[^=]+)?\s*=\s*(?:async\s+)?(?:\(|[a-zA-Z])/ .
Two regex subtleties are reproduced:
- the optional type annotation (?::\s*[^=]+)? followed by \s*= succeeds
  exactly when a ':' is present, a first '=' exists later, and at least
  one character (whitespace included, via backtracking between \s* and
  [^=]+) stands between the ':' and that first '='; the match then
  continues after that first '='; without a ':' the '=' must follow the
  (already consumed) whitespace directly;
- (?:async\s+)?(?:\(|[a-zA-Z]) accepts exactly the inputs whose first
  non-whitespace character after '=' is '(' or an ASCII letter, because
  when the async group matches but the class fails the engine backtracks
  and the letter 'a' of async itself satisfies the class. -/
def arrowMatch (t : List Char) : Option String :=
  let s := optKwWs "export".data t
  match kwVar s with
  | none => none
  | some r =>
    match ws1 r with
    | none => none
    | some r2 =>
      let w := (takeWord r2).1
      let r3 := (takeWord r2).2
      if w.isEmpty then none
      else
        let r4 := r3.dropWhile jsWs
        let afterEq : Option (List Char) :=
          match r4 with
          | ':' :: r5 =>
            let before := r5.takeWhile (fun c => !(c == '='))
            (match r5.dropWhile (fun c => !(c == '=')) with
             | '=' :: r6 => if before.isEmpty then none else some r6
             | _ => none)
          | '=' :: r5 => some r5
          | _ => none
        match afterEq with
        | none => none
        | some r6 =>
          match r6.dropWhile jsWs with
          | [] => none
          | c :: _ =>
            if c == '(' || isAsciiLetter c then some (String.mk w) else none

/-- Matcher for /^export\s+(default|{)/ (the capture is unused by the
source, which stores name: null). -/
def exportMatch (t : List Char) : Bool :=
  match dropLit "export".data t with
  | none => false
  | some r =>
    match ws1 r with
    | none => false
    | some r2 =>
      "default".data.isPrefixOf r2 ||
        (match r2 with | c :: _ => c == lbrace | [] => false)

/-- Matcher for /^(?:export\s+)?(?:const|let|var)\s+(\w+)/. -/
def varMatch (t : List Char) : Option String :=
  let s := optKwWs "export".data t
  match kwVar s with
  | none => none
  | some r =>
    match ws1 r with
    | none => none
    | some r2 =>
      let w := (takeWord r2).1
      if w.isEmpty then none else some (String.mk w)

/-- Chunk types of the source union
"function" | "class" | "import" | "type" | "export" | "block". -/
inductive ChunkType where
  | func
  | cls
  | imp
  | typ
  | exp
  | blk
deriving DecidableEq, Repr

/-- The source interface CodeChunk. -/
structure CodeChunk where
  content : String
  type : ChunkType
  startLine : Nat
  endLine : Nat
  name : Option String
deriving DecidableEq, Repr

/-- Does the trimmed line end in the given character. -/
def lastIs (t : List Char) (c : Char) : Bool :=
  match t.getLast? with
  | some x => x == c
  | none => false

/-- Loop body of findStatementEnd over lines[i..], with a budget that
starts at 30 (the loop bound Math.min(start + 30, lines.length) is the
budget running out or the line list running out). Per iteration on the
trimmed line t: a blank line with i > start returns i - 1; a line ending
in ';' returns i; everything else (including the dead t.endsWith(",")
test, which the source checks but never acts on) continues. -/
def fseAux (start : Nat) : List (List Char) → Nat → Nat → Option Nat
  | _, _, 0 => none
  | [], _, _ => none
  | l :: rest, i, b + 1 =>
    let t := trimChars l
    if t.isEmpty then
      if start < i then some (i - 1) else fseAux start rest (i + 1) b
    else if lastIs t ';' then some i
    else fseAux start rest (i + 1) b

/-- Embedding of findStatementEnd (returns start when the window finds
nothing). -/
def findStatementEnd (lines : List (List Char)) (start : Nat) : Nat :=
  (fseAux start (lines.drop start) start 30).getD start

/-- Character loop of findBlockEnd over one line: none signals the early
return (found && depth hit 0 after a decrement); otherwise the updated
(depth, foundOpen) pair. The depth is an integer because extra closing
braces drive it negative. -/
def braceLineStep : Int → Bool → List Char → Option (Int × Bool)
  | depth, found, [] => some (depth, found)
  | depth, found, c :: cs =>
    if c == lbrace then braceLineStep (depth + 1) true cs
    else if c == rbrace then
      if found && (depth - 1 == 0) then none
      else braceLineStep (depth - 1) found cs
    else braceLineStep depth found cs

/-- Line loop of findBlockEnd: Sum.inl i is the early return at line i,
Sum.inr found is falling off the end of the file with the final
foundOpen flag. -/
def fbeAux : List (List Char) → Nat → Int → Bool → Nat ⊕ Bool
  | [], _, _, found => Sum.inr found
  | l :: rest, i, depth, found =>
    match braceLineStep depth found l with
    | none => Sum.inl i
    | some (d, f) => fbeAux rest (i + 1) d f

/-- Embedding of findBlockEnd: early return wins; otherwise a found but
never rebalanced opening brace yields the last line of the file, and no
brace at all falls back to findStatementEnd. -/
def findBlockEnd (lines : List (List Char)) (start : Nat) : Nat :=
  match fbeAux (lines.drop start) start 0 false with
  | Sum.inl i => i
  | Sum.inr true => lines.length - 1
  | Sum.inr false => findStatementEnd lines start

/-! #### Bounds of the two end finders -/

theorem drop_cons_succ {α : Type} {lines : List α} {i : Nat} {l : α}
    {rest : List α} (h : lines.drop i = l :: rest) :
    lines.drop (i + 1) = rest := by
  have h1 := List.tail_drop lines i
  rw [h] at h1
  exact h1.symm

theorem lt_length_of_drop_cons {α : Type} {lines : List α} {i : Nat} {l : α}
    {rest : List α} (h : lines.drop i = l :: rest) : i < lines.length := by
  by_contra hge
  rw [List.drop_eq_nil_of_le (by omega)] at h
  cases h

theorem fseAux_some_bounds (lines : List (List Char)) (start : Nat) :
    ∀ (b : Nat) (rem : List (List Char)) (i j : Nat), start ≤ i →
      rem = lines.drop i → fseAux start rem i b = some j →
      start ≤ j ∧ j < i + b ∧ j < lines.length := by
  intro b
  induction b with
  | zero =>
    intro rem i j _ _ h
    cases rem <;> simp [fseAux] at h
  | succ b ih =>
    intro rem i j hsi hrem h
    cases rem with
    | nil => simp [fseAux] at h
    | cons l rest =>
      have hilt : i < lines.length := lt_length_of_drop_cons hrem.symm
      rw [fseAux] at h
      by_cases hemp : (trimChars l).isEmpty = true
      · rw [if_pos hemp] at h
        by_cases hlt : start < i
        · rw [if_pos hlt] at h
          have hj : j = i - 1 := (Option.some_inj.mp h).symm
          subst hj
          exact ⟨by omega, by omega, by omega⟩
        · rw [if_neg hlt] at h
          have := ih rest (i + 1) j (by omega)
            (by rw [drop_cons_succ hrem.symm]) h
          exact ⟨this.1, by omega, this.2.2⟩
      · rw [if_neg hemp] at h
        by_cases hsemi : lastIs (trimChars l) ';' = true
        · rw [if_pos hsemi] at h
          cases h
          exact ⟨hsi, by omega, hilt⟩
        · rw [if_neg hsemi] at h
          have := ih rest (i + 1) j (by omega)
            (by rw [drop_cons_succ hrem.symm]) h
          exact ⟨this.1, by omega, this.2.2⟩

theorem findStatementEnd_bounds (lines : List (List Char)) (start : Nat)
    (h : start < lines.length) :
    start ≤ findStatementEnd lines start ∧
      findStatementEnd lines start ≤ start + 29 ∧
      findStatementEnd lines start < lines.length := by
  unfold findStatementEnd
  cases hf : fseAux start (lines.drop start) start 30 with
  | none =>
    refine ⟨?_, ?_, ?_⟩ <;> simp only [Option.getD_none] <;> omega
  | some j =>
    have hb := fseAux_some_bounds lines start 30 (lines.drop start) start j
      (Nat.le_refl _) rfl hf
    exact ⟨by simpa using hb.1, by simp; omega, by simpa using hb.2.2⟩

theorem fbeAux_inl_bounds :
    ∀ (rem : List (List Char)) (i j : Nat) (depth : Int) (found : Bool),
      fbeAux rem i depth found = Sum.inl j → i ≤ j ∧ j < i + rem.length := by
  intro rem
  induction rem with
  | nil => intro i j depth found h; simp [fbeAux] at h
  | cons l rest ih =>
    intro i j depth found h
    rw [fbeAux] at h
    cases hb : braceLineStep depth found l with
    | none =>
      rw [hb] at h
      cases h
      simp
    | some p =>
      obtain ⟨d, f⟩ := p
      rw [hb] at h
      have := ih (i + 1) j d f h
      exact ⟨by omega, by simp only [List.length_cons]; omega⟩

theorem findBlockEnd_bounds (lines : List (List Char)) (start : Nat)
    (h : start < lines.length) :
    start ≤ findBlockEnd lines start ∧ findBlockEnd lines start < lines.length := by
  cases hf : fbeAux (lines.drop start) start 0 false with
  | inl j =>
    have hb := fbeAux_inl_bounds (lines.drop start) start j 0 false hf
    have heq : findBlockEnd lines start = j := by
      unfold findBlockEnd
      rw [hf]
    have hlen : (lines.drop start).length = lines.length - start := List.length_drop _ _
    rw [heq]
    exact ⟨hb.1, by omega⟩
  | inr found =>
    cases found with
    | true =>
      have heq : findBlockEnd lines start = lines.length - 1 := by
        unfold findBlockEnd
        rw [hf]
      rw [heq]
      exact ⟨by omega, by omega⟩
    | false =>
      have heq : findBlockEnd lines start = findStatementEnd lines start := by
        unfold findBlockEnd
        rw [hf]
      have hfs := findStatementEnd_bounds lines start h
      rw [heq]
      exact ⟨hfs.1, hfs.2.2⟩

/-! #### The main declaration scan -/

/-- Content of a chunk: lines.slice(i, e + 1).join("\n"). -/
def sliceContent (lines : List (List Char)) (i e : Nat) : List Char :=
  List.intercalate ['\n'] ((lines.drop i).take (e + 1 - i))

/-- Decision taken by one iteration of the while loop of chunkCode:
either emit a chunk covering lines i..e (and continue at e + 1), or
skip the line. -/
inductive ScanAction where
  | emit (ty : ChunkType) (nm : Option String) (e : Nat)
  | skip
deriving DecidableEq, Repr

/-- Substring containment, for String.prototype.includes. -/
def containsSub (pat : List Char) : List Char → Bool
  | [] => pat.isEmpty
  | c :: cs => pat.isPrefixOf (c :: cs) || containsSub pat cs

/-- The arrow-function branch of the while loop: on an arrowMatch, the
block end and its content are computed, and the chunk is only emitted
when the content contains "=>" or "function"; otherwise the loop falls
through to the export and var tests. -/
def arrowAction (lines : List (List Char)) (i : Nat) (t : List Char) :
    Option ScanAction :=
  match arrowMatch t with
  | some nm =>
    if containsSub "=>".data (sliceContent lines i (findBlockEnd lines i)) ||
        containsSub "function".data (sliceContent lines i (findBlockEnd lines i))
    then some (ScanAction.emit ChunkType.func (some nm) (findBlockEnd lines i))
    else none
  | none => none

/-- One iteration of the while loop of chunkCode at line i, on the
trimmed line t: skip blank lines and line comments; otherwise try, in
order, the type, class, function, arrow, export and var matchers; emit
with the appropriate end finder on the first match, or skip. -/
def scanAt (lines : List (List Char)) (i : Nat) (t : List Char) : ScanAction :=
  if t.isEmpty || "//".data.isPrefixOf t then ScanAction.skip
  else
    match typeMatch t with
    | some nm => ScanAction.emit ChunkType.typ (some nm) (findBlockEnd lines i)
    | none =>
      match classMatch t with
      | some nm => ScanAction.emit ChunkType.cls (some nm) (findBlockEnd lines i)
      | none =>
        match funcMatch t with
        | some nm => ScanAction.emit ChunkType.func (some nm) (findBlockEnd lines i)
        | none =>
          match arrowAction lines i t with
          | some a => a
          | none =>
            if exportMatch t then
              ScanAction.emit ChunkType.exp none (findBlockEnd lines i)
            else
              match varMatch t with
              | some nm =>
                ScanAction.emit ChunkType.blk (some nm) (findStatementEnd lines i)
              | none => ScanAction.skip

/-- One iteration of the while loop at line i. -/
def scanLine (lines : List (List Char)) (i : Nat) : ScanAction :=
  scanAt lines i (trimChars (lines.getD i []))

theorem arrowAction_emit {lines : List (List Char)} {i : Nat} {t : List Char}
    {a : ScanAction} (h : arrowAction lines i t = some a) :
    ∃ nm, a = ScanAction.emit ChunkType.func (some nm) (findBlockEnd lines i) := by
  unfold arrowAction at h
  split at h
  · split at h
    · rename_i nm _ _
      exact ⟨nm, (Option.some_inj.mp h).symm⟩
    · cases h
  · cases h

theorem scanLine_emit_bounds {lines : List (List Char)} {i : Nat}
    {ty : ChunkType} {nm : Option String} {e : Nat} (hlt : i < lines.length)
    (h : scanLine lines i = ScanAction.emit ty nm e) :
    i ≤ e ∧ e < lines.length := by
  have hb := findBlockEnd_bounds lines i hlt
  have hs := findStatementEnd_bounds lines i hlt
  unfold scanLine scanAt at h
  split at h
  · cases h
  · split at h
    · cases h
      exact hb
    · split at h
      · cases h
        exact hb
      · split at h
        · cases h
          exact hb
        · split at h
          · rename_i a ha
            obtain ⟨nm2, ha2⟩ := arrowAction_emit ha
            rw [ha2] at h
            cases h
            exact hb
          · split at h
            · cases h
              exact hb
            · split at h
              · cases h
                exact ⟨hs.1, hs.2.2⟩
              · cases h

/-- The while loop of chunkCode from line i on. -/
def mainScan (lines : List (List Char)) (i : Nat) : List CodeChunk :=
  if hlt : i < lines.length then
    match hs : scanLine lines i with
    | ScanAction.skip => mainScan lines (i + 1)
    | ScanAction.emit ty nm e =>
      have hb := scanLine_emit_bounds hlt hs
      ⟨String.mk (sliceContent lines i e), ty, i + 1, e + 1, nm⟩ ::
        mainScan lines (e + 1)
  else []
termination_by lines.length - i
decreasing_by
  · omega
  · omega

/-! #### The import block scan -/

/-- Lines that start (or extend by themselves) the import block:
trimmed.startsWith("import ") or trimmed.startsWith("import\x7b"). -/
def lineIsImportStart (t : List Char) : Bool :=
  "import ".data.isPrefixOf t || "import\x7b".data.isPrefixOf t

/-- Continuation lines: trimmed.startsWith("\x7d from"), blank lines, and
line comments. -/
def lineIsImportCont (t : List Char) : Bool :=
  "\x7d from".data.isPrefixOf t || t.isEmpty || "//".data.isPrefixOf t

/-- The for loop collecting importStart/importEnd, with -1 as the
JS sentinel for "not seen yet"; the else-if branch is the break. Note a
line opening a block comment neither extends nor breaks the block. -/
def importScanAux : List (List Char) → Nat → Int → Int → Int × Int
  | [], _, s, e => (s, e)
  | l :: rest, i, s, e =>
    let t := trimChars l
    if lineIsImportStart t || (decide (0 ≤ s) && lineIsImportCont t) then
      importScanAux rest (i + 1) (if s < 0 then (i : Int) else s) (i : Int)
    else if decide (0 ≤ s) && !t.isEmpty && !("//".data.isPrefixOf t) &&
        !("/*".data.isPrefixOf t) then
      (s, e)
    else importScanAux rest (i + 1) s e

/-- The import scan over the whole file. -/
def importScan (lines : List (List Char)) : Int × Int :=
  importScanAux lines 0 (-1) (-1)

/-- The import chunk (step 1 of chunkCode), emitted only when an import
line was seen and the trimmed content is nonempty. -/
def importPart (lines : List (List Char)) : List CodeChunk :=
  let p := importScan lines
  if 0 ≤ p.1 then
    let s := p.1.toNat
    let e := p.2.toNat
    let content := trimChars (List.intercalate ['\n'] ((lines.drop s).take (e + 1 - s)))
    if 0 < content.length then
      [⟨String.mk content, ChunkType.imp, s + 1, e + 1, some "imports"⟩]
    else []
  else []

/-- Embedding of chunkCode: the import chunk (if any) followed by the
declaration scan from line 0. -/
def chunkCode (source : String) : List CodeChunk :=
  importPart (splitLines source) ++ mainScan (splitLines source) 0

/-! ### The semantic store (search / findSimilar)

The SQLite table is modelled as the list of its rows; the embedding BLOB
column, reinterpreted by the source as a Float64Array, is an optional
list of reals (none models a NULL/absent blob). search builds one result
per row with a usable embedding whose cosine similarity to the query
exceeds the 0.01 noise floor, sorts by similarity descending (the JS
comparator (a, b) => b.similarity - a.similarity, stable on ties), and
truncates to the limit. findSimilar is search with limit 20 followed by
the threshold / exclude-file filter.
-/

/-- A row of the code_chunks table (the columns the search path reads). -/
structure StoredChunk where
  id : Nat
  file_path : String
  chunk_content : String
  chunk_type : ChunkType
  chunk_name : Option String
  start_line : Nat
  end_line : Nat
  project_path : String
deriving DecidableEq, Repr

/-- A stored row together with its embedding blob. -/
structure StoredRow where
  chunk : StoredChunk
  embedding : Option (List ℝ)

/-- The source interface SearchResult (embedding stripped). -/
structure SearchResult where
  chunk : StoredChunk
  similarity : ℝ

/-- Embedding of SemanticStore.search. -/
noncomputable def searchStore (vec : VecState) (rows : List StoredRow)
    (query : String) (limit : Nat) (projectPath : Option String) :
    List SearchResult :=
  let queryEmbedding := embed vec query
  if queryEmbedding.dim = 0 then []
  else
    let inScope :=
      match projectPath with
      | some p => rows.filter (fun r : StoredRow => r.chunk.project_path == p)
      | none => rows
    let results := inScope.filterMap (fun r : StoredRow =>
      match r.embedding with
      | none => none
      | some blob =>
        if blob.isEmpty then none
        else
          let similarity :=
            cosineSimilarity queryEmbedding ⟨blob, queryEmbedding.dim⟩
          if (1 : ℝ) / 100 < similarity then some ⟨r.chunk, similarity⟩
          else none)
    (results.mergeSort (fun a b => decide (b.similarity ≤ a.similarity))).take limit

/-- Embedding of SemanticStore.findSimilar (search with limit 20, then
the threshold and self-exclusion filter). -/
noncomputable def findSimilar (vec : VecState) (rows : List StoredRow)
    (code : String) (threshold : ℝ) (excludeFile : Option String) :
    List SearchResult :=
  (searchStore vec rows code 20 none).filter (fun r =>
    decide (threshold ≤ r.similarity) &&
      (match excludeFile with
       | some f => !(r.chunk.file_path == f)
       | none => true))

/-! ### The similarity engine (SemanticSupervisor)

detectInconsistency builds a {message, suggestion} string pair whose
template is determined by which heuristic branch fires; the pair is
abstracted here to the branch tag (a Heuristic value), which is exactly
the information the strings carry about the comparison outcome.
-/

/-- The three paired heuristics of detectInconsistency, in source order. -/
inductive Heuristic where
  | tryCatch
  | asyncPat
  | returnStmt
deriving DecidableEq, Repr

/-- Matcher at one position for /try\s*\x7b/. -/
def tryAt (cs : List Char) : Bool :=
  match dropLit "try".data cs with
  | some r =>
    (match r.dropWhile jsWs with
     | c :: _ => c == lbrace
     | [] => false)
  | none => false

/-- Matcher at one position for /async\s/. -/
def asyncAt (cs : List Char) : Bool :=
  match dropLit "async".data cs with
  | some (c :: _) => jsWs c
  | _ => false

/-- Matcher at one position for /return\s/. -/
def returnAt (cs : List Char) : Bool :=
  match dropLit "return".data cs with
  | some (c :: _) => jsWs c
  | _ => false

/-- Search for a position where the matcher fires (RegExp.prototype.test
of an unanchored regex). -/
def scanFor (p : List Char → Bool) : List Char → Bool
  | [] => p []
  | c :: cs => p (c :: cs) || scanFor p cs

/-- /try\s*\x7b/.test(s). -/
def hasTryCatch (s : String) : Bool := scanFor tryAt s.data

/-- /async\s/.test(s). -/
def hasAsync (s : String) : Bool := scanFor asyncAt s.data

/-- /return\s/.test(s). -/
def hasReturn (s : String) : Bool := scanFor returnAt s.data

/-- Finding severities used by the semantic supervisor. -/
inductive Severity where
  | warning
  | info
deriving DecidableEq, Repr

/-- The two semantic rules. -/
inductive SemRule where
  | semanticDuplication
  | semanticInconsistency
deriving DecidableEq, Repr

/-- A semantic finding; message/suggestion strings are abstracted to the
heuristic tag that selected their template (none for duplication
findings), and similarChunk to the matched file and similarity. -/
structure SemFinding where
  severity : Severity
  rule : SemRule
  file : String
  line : Nat
  heuristic : Option Heuristic
  similarFile : String
  similarSimilarity : ℝ

/-- Embedding of SemanticSupervisor.detectInconsistency: the first
differing heuristic in source order wins, with the return-statement
comparison additionally guarded by chunk.type === "function". -/
def detectInconsistency (chunk : CodeChunk) (similar : SearchResult) :
    Option Heuristic :=
  let a := chunk.content
  let b := similar.chunk.chunk_content
  if hasTryCatch a != hasTryCatch b then some Heuristic.tryCatch
  else if hasAsync a != hasAsync b then some Heuristic.asyncPat
  else if (hasReturn a != hasReturn b) && (chunk.type == ChunkType.func) then
    some Heuristic.returnStmt
  else none

/-- The per-chunk body of SemanticSupervisor.analyzeFile, applied to the
results of the store query for that chunk. -/
noncomputable def classifyChunk (dupT patT : ℝ) (filePath : String)
    (chunk : CodeChunk) (similar : List SearchResult) : List SemFinding :=
  match similar with
  | [] => []
  | top :: _ =>
    if dupT ≤ top.similarity then
      [⟨Severity.warning, SemRule.semanticDuplication, filePath, chunk.startLine,
        none, top.chunk.file_path, top.similarity⟩]
    else if patT ≤ top.similarity ∧ chunk.type = top.chunk.chunk_type then
      match detectInconsistency chunk top with
      | some h =>
        [⟨Severity.info, SemRule.semanticInconsistency, filePath, chunk.startLine,
          some h, top.chunk.file_path, top.similarity⟩]
      | none => []
    else []

/-- Embedding of SemanticSupervisor.analyzeFile; the store call
this.store.findSimilar(content, patternThreshold, filePath) is passed in
as the function findSim (the store is external state to the engine). -/
noncomputable def analyzeFile (findSim : String → ℝ → String → List SearchResult)
    (dupT patT : ℝ) (content filePath : String) : List SemFinding :=
  (chunkCode content).flatMap (fun chunk =>
    if (splitLines chunk.content).length < 3 then []
    else classifyChunk dupT patT filePath chunk
      (findSim chunk.content patT filePath))

/-- Modelled from the spec: the first heuristic among try/catch presence,
async presence and return presence on which the two raw texts differ,
with no further condition — the reading of the claim that emits an
inconsistency finding for the first differing heuristic regardless of
the chunk type. -/
def specFirstDiffHeuristic (a b : String) : Option Heuristic :=
  if hasTryCatch a != hasTryCatch b then some Heuristic.tryCatch
  else if hasAsync a != hasAsync b then some Heuristic.asyncPat
  else if hasReturn a != hasReturn b then some Heuristic.returnStmt
  else none

/-! ### Operation-level view of the vectorizer and store

embed, cosineSimilarity, search and findSimilar contain no assignment to
the vectorizer fields or to the chunk table, so their state-passing
translations return the state unchanged; train (addDocuments) and
deserialize are the only state transformers.
-/

/-- Operations of the TfIdfVectorizer interface. -/
inductive VecOp where
  | train (docs : List String)
  | restore (d : SerializedState)
  | embedText (text : String)
  | cosineQ (a b : EmbeddingVector)

/-- Results of vectorizer operations. -/
inductive VecOut where
  | unit
  | vec (v : EmbeddingVector)
  | num (x : ℝ)

/-- State-passing translation of one vectorizer operation. -/
noncomputable def runVecOp (s : VecState) : VecOp → VecState × VecOut
  | VecOp.train docs => (addDocuments s docs, VecOut.unit)
  | VecOp.restore d => (deserialize d, VecOut.unit)
  | VecOp.embedText t => (s, VecOut.vec (embed s t))
  | VecOp.cosineQ a b => (s, VecOut.num (cosineSimilarity a b))

/-- The query (read-only) operations. -/
def VecOp.isQuery : VecOp → Bool
  | VecOp.embedText _ => true
  | VecOp.cosineQ _ _ => true
  | _ => false

/-- The semantic store's state: the vectorizer plus the chunk table. -/
structure StoreState where
  vecState : VecState
  rows : List StoredRow

/-- State-passing translation of SemanticStore.search. -/
noncomputable def runSearch (st : StoreState) (query : String) (limit : Nat)
    (scope : Option String) : StoreState × List SearchResult :=
  (st, searchStore st.vecState st.rows query limit scope)

/-- State-passing translation of SemanticStore.findSimilar. -/
noncomputable def runFindSimilar (st : StoreState) (code : String)
    (threshold : ℝ) (excl : Option String) : StoreState × List SearchResult :=
  (st, findSimilar st.vecState st.rows code threshold excl)

/-! ### Claim theorems

The scanners compiled by well-founded recursion are unsealed so that the
kernel can evaluate them on the concrete inputs of the witnesses and
counterexamples below.
-/

unseal stripStrLits numScan camelSplit acronymSplit tokenRuns dedupFirst mainScan

/-- A concrete trained vectorizer state used by the witnesses:
two documents, vocabulary function/foo/bar/class/baz with indices
0..4, all document frequencies 1, totalDocs 2. -/
def vDemo : VecState :=
  addDocuments VecState.empty ["function fooBar", "class Baz"]

/-- C1. Round-trip persistence: for a trained vectorizer state (its two
maps were built by Map.set only, so their key lists have no duplicates),
deserialize(serialize(v)) reconstructs the state exactly, and therefore
embed produces identical output for every input text. -/
theorem C1_round_trip_persistence (v : VecState)
    (h1 : NodupKeys v.vocab) (h2 : NodupKeys v.df) :
    deserialize (serialize v) = v ∧
      ∀ t, embed (deserialize (serialize v)) t = embed v t := by
  have hst : deserialize (serialize v) = v := by
    unfold serialize deserialize
    simp only
    rw [mapOfList_eq_self _ h1, mapOfList_eq_self _ h2]
  exact ⟨hst, fun t => by rw [hst]⟩

/-- Witness for C1 at the concrete trained state vDemo. -/
theorem C1_round_trip_persistence_witness :
    NodupKeys vDemo.vocab ∧ NodupKeys vDemo.df ∧
      (deserialize (serialize vDemo) = vDemo ∧
        ∀ t, embed (deserialize (serialize vDemo)) t = embed vDemo t) :=
  ⟨by decide, by decide, C1_round_trip_persistence vDemo (by decide) (by decide)⟩

/-- C2. Embedding normalization: with a non-empty vocabulary, embed
returns a vector whose data length and recorded dimension equal the
vocabulary size at the moment of the call, and whose Euclidean norm is
exactly 1 or which is exactly the all-zero vector. -/
theorem C2_embed_normalization (s : VecState) (text : String)
    (h : s.vocab ≠ []) :
    (embed s text).data.length = s.vocab.length ∧
      (embed s text).dim = s.vocab.length ∧
      (Real.sqrt (l2normSq (embed s text).data) = 1 ∨
        (embed s text).data = List.replicate s.vocab.length 0) :=
  embed_dichotomy s text h

/-- Witness for C2 at vDemo and a concrete text. -/
theorem C2_embed_normalization_witness :
    vDemo.vocab ≠ [] ∧
      ((embed vDemo "function foo").data.length = vDemo.vocab.length ∧
        (embed vDemo "function foo").dim = vDemo.vocab.length ∧
        (Real.sqrt (l2normSq (embed vDemo "function foo").data) = 1 ∨
          (embed vDemo "function foo").data =
            List.replicate vDemo.vocab.length 0)) :=
  ⟨by decide, C2_embed_normalization vDemo "function foo" (by decide)⟩

/-- C3. Exact TF-IDF formula: in a well-formed state, the
pre-normalization weight embed places at the vocabulary index of token t
is (occurrences of t in the tokenized input / total token count of the
tokenized input) * ln(1 + totalDocs / max(1, documentFrequency of t)),
with the convention 0 / 0 = 0 covering texts with no tokens; vocabulary
indices that no input token maps to keep weight 0, so tokens not in the
vocabulary contribute nothing. -/
theorem C3_tfidf_formula (s : VecState) (text : String) (hwf : Wf s)
    (t : String) (i : Nat) (hv : mapGet s.vocab t = some i) :
    (preVec s (tokenize text))[i]? =
      some ((((tokenize text).count t : ℝ) / ((tokenize text).length : ℝ)) *
        Real.log (1 + (s.totalDocs : ℝ) /
          ((max 1 ((mapGet s.df t).getD 0) : Nat) : ℝ))) ∧
    (∀ j, j < s.vocab.length →
      (∀ u, mapGet s.vocab u = some j → u ∉ tokenize text) →
      (preVec s (tokenize text))[j]? = some 0) := by
  constructor
  · have h1 := preVec_get s (tokenize text) hwf t i hv
    rw [h1]
    unfold idfVal
    rw [docFreqVal_eq_max]
  · intro j hj hu
    exact preVec_get_zero s (tokenize text) j hj hu

/-- Witness for C3 at vDemo, token "function" (index 0). -/
theorem C3_tfidf_formula_witness :
    Wf vDemo ∧ mapGet vDemo.vocab "function" = some 0 ∧
      ((preVec vDemo (tokenize "function foo"))[0]? =
        some ((((tokenize "function foo").count "function" : ℝ) /
            ((tokenize "function foo").length : ℝ)) *
          Real.log (1 + (vDemo.totalDocs : ℝ) /
            ((max 1 ((mapGet vDemo.df "function").getD 0) : Nat) : ℝ))) ∧
      (∀ j, j < vDemo.vocab.length →
        (∀ u, mapGet vDemo.vocab u = some j → u ∉ tokenize "function foo") →
        (preVec vDemo (tokenize "function foo"))[j]? = some 0)) :=
  ⟨by decide, by decide,
    C3_tfidf_formula vDemo "function foo" (by decide) "function" 0 (by decide)⟩

/-- C5. Corpus-state invariants under training: starting from a
well-formed state, addDocuments preserves well-formedness (dense
contiguous indices and df bounded by totalDocs), never reassigns or
removes an existing token's index, never decreases vocabulary size,
totalDocs or any document frequency, and gives every token of every
trained document an index below the vocabulary size. -/
theorem C5_train_invariants (s : VecState) (docs : List String) (hwf : Wf s) :
    Wf (addDocuments s docs) ∧
    (∀ t i, mapGet s.vocab t = some i →
      mapGet (addDocuments s docs).vocab t = some i) ∧
    s.vocab.length ≤ (addDocuments s docs).vocab.length ∧
    s.totalDocs ≤ (addDocuments s docs).totalDocs ∧
    (∀ t d, mapGet s.df t = some d →
      ∃ d', mapGet (addDocuments s docs).df t = some d' ∧ d ≤ d') ∧
    (∀ doc, doc ∈ docs → ∀ t, t ∈ tokenize doc →
      ∃ i, mapGet (addDocuments s docs).vocab t = some i ∧
        i < (addDocuments s docs).vocab.length) := by
  have hwf' := addDocuments_wf docs s hwf
  refine ⟨hwf', fun t i h => addDocuments_vocab_preserved docs s h,
    addDocuments_vocab_length docs s, addDocuments_totalDocs_mono docs s,
    fun t d h => addDocuments_df_mono docs s d h, ?_⟩
  intro doc hdoc t ht
  have hsome := addDocuments_coverage docs s doc hdoc t ht
  cases hg : mapGet (addDocuments s docs).vocab t with
  | none => rw [hg] at hsome; simp at hsome
  | some i => exact ⟨i, rfl, vocab_index_lt hwf'.2.2.1 hg⟩

/-- Witness for C5: training the empty state on two concrete documents. -/
theorem C5_train_invariants_witness :
    Wf VecState.empty ∧
      (Wf vDemo ∧
      (∀ t i, mapGet VecState.empty.vocab t = some i →
        mapGet vDemo.vocab t = some i) ∧
      VecState.empty.vocab.length ≤ vDemo.vocab.length ∧
      VecState.empty.totalDocs ≤ vDemo.totalDocs ∧
      (∀ t d, mapGet VecState.empty.df t = some d →
        ∃ d', mapGet vDemo.df t = some d' ∧ d ≤ d') ∧
      (∀ doc, doc ∈ ["function fooBar", "class Baz"] → ∀ t, t ∈ tokenize doc →
        ∃ i, mapGet vDemo.vocab t = some i ∧ i < vDemo.vocab.length)) :=
  ⟨by decide,
    C5_train_invariants VecState.empty ["function fooBar", "class Baz"] (by decide)⟩

/-- C10. Query purity: embed and cosineSimilarity (and the store
operations search and findSimilar built on them) leave the corpus state
unchanged under the state-passing translation — their bodies contain no
field assignment — so in particular a token unknown at query time is
never added to the vocabulary, and only train (addDocuments) and
deserialize transform the state. -/
theorem C10_query_purity :
    (∀ (s : VecState) (op : VecOp), op.isQuery = true → (runVecOp s op).1 = s) ∧
    (∀ (s : VecState) (text u : String),
      mapGet (runVecOp s (VecOp.embedText text)).1.vocab u = mapGet s.vocab u) ∧
    (∀ (st : StoreState) (query : String) (limit : Nat) (scope : Option String),
      (runSearch st query limit scope).1 = st) ∧
    (∀ (st : StoreState) (code : String) (threshold : ℝ) (excl : Option String),
      (runFindSimilar st code threshold excl).1 = st) := by
  refine ⟨?_, fun s text u => rfl, fun st q l sc => rfl, fun st c t e => rfl⟩
  intro s op hq
  cases op with
  | train docs => simp [VecOp.isQuery] at hq
  | restore d => simp [VecOp.isQuery] at hq
  | embedText t => rfl
  | cosineQ a b => rfl

/-- Witness for C10 at a concrete query operation. -/
theorem C10_query_purity_witness :
    (VecOp.embedText "unknownToken").isQuery = true ∧
      (runVecOp vDemo (VecOp.embedText "unknownToken")).1 = vDemo :=
  ⟨by decide, C10_query_purity.1 vDemo (VecOp.embedText "unknownToken") (by decide)⟩

/-! ### C4: similarity-engine classification -/

/-- Candidate file content for the C4 counterexample: a 3-line class
whose method contains a return statement (no try/catch, no async). -/
def c4ContentA : String := "class A \x7b\nm() \x7b return 1; \x7d\n\x7d"

/-- Stored content for the C4 counterexample: a structurally similar
class without a return statement. -/
def c4ContentB : String := "class B \x7b\nm() \x7b \x7d\n\x7d"

/-- The stored chunk matched against the candidate. -/
def c4Stored : StoredChunk :=
  ⟨1, "old.ts", c4ContentB, ChunkType.cls, some "B", 1, 3, "proj"⟩

/-- C4 counterexample: a class-type candidate whose store query returns
one result with similarity 3/5 (between the pattern threshold 1/2 and
the duplication threshold 7/10) of the same structural type, where the
two raw texts differ exactly on the return-statement heuristic — the
first (and only) differing heuristic — yet analyzeFile emits no finding,
because the code consults the return heuristic only for function-type
chunks. -/
theorem C4_counterexample :
    specFirstDiffHeuristic c4ContentA c4ContentB = some Heuristic.returnStmt ∧
    (chunkCode c4ContentA).map (fun c => (c.type, c.startLine, c.endLine)) =
      [(ChunkType.cls, 1, 3)] ∧
    (splitLines c4ContentA).length = 3 ∧
    ((3 : ℝ)/5 < 7/10 ∧ (1 : ℝ)/2 ≤ 3/5) ∧
    c4Stored.chunk_type = ChunkType.cls ∧
    analyzeFile (fun _ _ _ => [⟨c4Stored, 3/5⟩]) (7/10) (1/2)
      c4ContentA "new.ts" = [] := by
  refine ⟨by decide, by decide, by decide, ⟨by norm_num, by norm_num⟩, by decide, ?_⟩
  unfold analyzeFile
  have hcc : chunkCode c4ContentA =
      [⟨c4ContentA, ChunkType.cls, 1, 3, some "A"⟩] := by decide
  rw [hcc]
  simp only [List.flatMap_cons, List.flatMap_nil, List.append_nil]
  rw [if_neg (by decide)]
  unfold classifyChunk
  simp only
  rw [if_neg (by norm_num : ¬ ((7 : ℝ)/10 ≤ (3 : ℝ)/5))]
  rw [if_pos ⟨by norm_num, by decide⟩]
  rw [show detectInconsistency ⟨c4ContentA, ChunkType.cls, 1, 3, some "A"⟩
      ⟨c4Stored, 3/5⟩ = none by decide]

/-- C4 amended: the duplication branch emits exactly one duplication
finding; the pattern branch (same structural type, similarity between
the thresholds) emits at most one inconsistency finding, namely for the
result of detectInconsistency; when a finding is emitted it reports the
first heuristic in source order on which the two raw texts differ, and
the return-statement heuristic is consulted only for function-type
candidates (for function chunks the code agrees exactly with the
first-differing-heuristic reading); otherwise no finding is emitted. -/
theorem C4_amended (dupT patT : ℝ) (filePath : String) (chunk : CodeChunk)
    (top : SearchResult) (rest : List SearchResult) :
    (dupT ≤ top.similarity →
      classifyChunk dupT patT filePath chunk (top :: rest) =
        [⟨Severity.warning, SemRule.semanticDuplication, filePath,
          chunk.startLine, none, top.chunk.file_path, top.similarity⟩]) ∧
    (¬ dupT ≤ top.similarity → patT ≤ top.similarity →
      chunk.type = top.chunk.chunk_type →
      classifyChunk dupT patT filePath chunk (top :: rest) =
        (match detectInconsistency chunk top with
         | some h => [⟨Severity.info, SemRule.semanticInconsistency, filePath,
             chunk.startLine, some h, top.chunk.file_path, top.similarity⟩]
         | none => [])) ∧
    (¬ dupT ≤ top.similarity →
      ¬ (patT ≤ top.similarity ∧ chunk.type = top.chunk.chunk_type) →
      classifyChunk dupT patT filePath chunk (top :: rest) = []) ∧
    (classifyChunk dupT patT filePath chunk (top :: rest)).length ≤ 1 ∧
    classifyChunk dupT patT filePath chunk [] = [] ∧
    (∀ h, detectInconsistency chunk top = some h →
      specFirstDiffHeuristic chunk.content top.chunk.chunk_content = some h) ∧
    (chunk.type = ChunkType.func →
      detectInconsistency chunk top =
        specFirstDiffHeuristic chunk.content top.chunk.chunk_content) ∧
    (detectInconsistency chunk top = some Heuristic.returnStmt →
      chunk.type = ChunkType.func) := by
  refine ⟨?_, ?_, ?_, ?_, rfl, ?_, ?_, ?_⟩
  · intro h
    unfold classifyChunk
    simp only
    rw [if_pos h]
  · intro h1 h2 h3
    unfold classifyChunk
    simp only
    rw [if_neg h1, if_pos ⟨h2, h3⟩]
  · intro h1 h2
    unfold classifyChunk
    simp only
    rw [if_neg h1, if_neg h2]
  · unfold classifyChunk
    simp only
    by_cases h1 : dupT ≤ top.similarity
    · rw [if_pos h1]
      simp
    · rw [if_neg h1]
      by_cases h2 : patT ≤ top.similarity ∧ chunk.type = top.chunk.chunk_type
      · rw [if_pos h2]
        cases detectInconsistency chunk top <;> simp
      · rw [if_neg h2]
        simp
  · intro h hd
    unfold detectInconsistency at hd
    unfold specFirstDiffHeuristic
    by_cases ht : (hasTryCatch chunk.content != hasTryCatch top.chunk.chunk_content) = true
    · rw [if_pos ht] at hd
      rw [if_pos ht]
      exact hd
    · rw [if_neg ht] at hd
      rw [if_neg ht]
      by_cases ha : (hasAsync chunk.content != hasAsync top.chunk.chunk_content) = true
      · rw [if_pos ha] at hd
        rw [if_pos ha]
        exact hd
      · rw [if_neg ha] at hd
        rw [if_neg ha]
        by_cases hr : ((hasReturn chunk.content != hasReturn top.chunk.chunk_content) &&
            (chunk.type == ChunkType.func)) = true
        · rw [if_pos hr] at hd
          rw [if_pos (Bool.and_eq_true_iff.mp hr).1]
          exact hd
        · rw [if_neg hr] at hd
          cases hd
  · intro hf
    unfold detectInconsistency specFirstDiffHeuristic
    by_cases ht : (hasTryCatch chunk.content != hasTryCatch top.chunk.chunk_content) = true
    · rw [if_pos ht, if_pos ht]
    · rw [if_neg ht, if_neg ht]
      by_cases ha : (hasAsync chunk.content != hasAsync top.chunk.chunk_content) = true
      · rw [if_pos ha, if_pos ha]
      · rw [if_neg ha, if_neg ha]
        by_cases hr : (hasReturn chunk.content != hasReturn top.chunk.chunk_content) = true
        · rw [if_pos (by rw [hr, hf]; rfl), if_pos hr]
        · rw [if_neg (by rw [Bool.not_eq_true] at hr; simp [hr]), if_neg hr]
  · intro hd
    unfold detectInconsistency at hd
    by_cases ht : (hasTryCatch chunk.content != hasTryCatch top.chunk.chunk_content) = true
    · rw [if_pos ht] at hd
      cases hd
    · rw [if_neg ht] at hd
      by_cases ha : (hasAsync chunk.content != hasAsync top.chunk.chunk_content) = true
      · rw [if_pos ha] at hd
        cases hd
      · rw [if_neg ha] at hd
        by_cases hr : ((hasReturn chunk.content != hasReturn top.chunk.chunk_content) &&
            (chunk.type == ChunkType.func)) = true
        · exact beq_iff_eq.mp (Bool.and_eq_true_iff.mp hr).2
        · rw [if_neg hr] at hd
          cases hd

/-- Witness for C4 at concrete inputs exercising the duplication branch. -/
theorem C4_amended_witness :
    (7 : ℝ)/10 ≤ 4/5 ∧
      classifyChunk (7/10) (1/2) "new.ts"
        ⟨c4ContentA, ChunkType.cls, 1, 3, some "A"⟩ [⟨c4Stored, 4/5⟩] =
        [⟨Severity.warning, SemRule.semanticDuplication, "new.ts", 1,
          none, "old.ts", 4/5⟩] :=
  ⟨by norm_num,
    (C4_amended (7/10) (1/2) "new.ts" ⟨c4ContentA, ChunkType.cls, 1, 3, some "A"⟩
      ⟨c4Stored, 4/5⟩ []).1 (by norm_num)⟩

/-! ### C6: chunker output ordering -/

theorem mainScan_eq_nil {lines : List (List Char)} {i : Nat}
    (h : ¬ i < lines.length) : mainScan lines i = [] := by
  rw [mainScan]
  rw [dif_neg h]

theorem mainScan_eq_skip {lines : List (List Char)} {i : Nat}
    (h : i < lines.length) (hs : scanLine lines i = ScanAction.skip) :
    mainScan lines i = mainScan lines (i + 1) := by
  rw [mainScan]
  rw [dif_pos h]
  split
  · rfl
  · rename_i ty nm e heq
    rw [hs] at heq
    cases heq

theorem mainScan_eq_emit {lines : List (List Char)} {i : Nat}
    {ty : ChunkType} {nm : Option String} {e : Nat}
    (h : i < lines.length) (hs : scanLine lines i = ScanAction.emit ty nm e) :
    mainScan lines i =
      ⟨String.mk (sliceContent lines i e), ty, i + 1, e + 1, nm⟩ ::
        mainScan lines (e + 1) := by
  rw [mainScan]
  rw [dif_pos h]
  split
  · rename_i heq
    rw [hs] at heq
    cases heq
  · rename_i ty' nm' e' heq
    rw [hs] at heq
    cases heq
    rfl

theorem mainScan_sorted_aux (lines : List (List Char)) :
    ∀ (n i : Nat), lines.length - i ≤ n →
      List.Forall (fun c => i + 1 ≤ c.startLine ∧ c.startLine ≤ c.endLine ∧
        c.endLine ≤ lines.length) (mainScan lines i) ∧
      List.Chain' (fun a b => a.endLine < b.startLine) (mainScan lines i) := by
  intro n
  induction n with
  | zero =>
    intro i hfuel
    rw [mainScan_eq_nil (by omega)]
    exact ⟨trivial, trivial⟩
  | succ n ih =>
    intro i hfuel
    by_cases hlt : i < lines.length
    · cases hs : scanLine lines i with
      | skip =>
        rw [mainScan_eq_skip hlt hs]
        have := ih (i + 1) (by omega)
        refine ⟨?_, this.2⟩
        rw [List.forall_iff_forall_mem] at this ⊢
        intro c hc
        have hic := this.1 c hc
        exact ⟨by omega, hic.2⟩
      | emit ty nm e =>
        have hbnd := scanLine_emit_bounds hlt hs
        rw [mainScan_eq_emit hlt hs]
        have hrec := ih (e + 1) (by omega)
        constructor
        · rw [List.forall_iff_forall_mem] at hrec ⊢
          intro c hc
          rcases List.mem_cons.mp hc with h1 | h1
          · rw [h1]
            exact ⟨Nat.le_refl _, by simp only; omega, by simp only; omega⟩
          · have hic := hrec.1 c h1
            exact ⟨by omega, hic.2⟩
        · rw [List.chain'_cons']
          constructor
          · intro b hb
            have hbm : b ∈ mainScan lines (e + 1) :=
              List.mem_of_mem_head? hb
            rw [List.forall_iff_forall_mem] at hrec
            have := (hrec.1 b hbm).1
            simp only
            omega
          · exact hrec.2
    · rw [mainScan_eq_nil hlt]
      exact ⟨trivial, trivial⟩

/-- C6 amended: chunkCode is the pure concatenation of the import chunk
and the declaration scan; the declaration-scan chunks are pairwise
non-overlapping and ordered by position (each chunk ends strictly before
the next begins), with 1-based line ranges inside the file. The
leading import chunk is not covered by this ordering: when import lines appear
after other declarations it can overlap the declaration chunks and
precede a chunk with a smaller startLine (see the counterexample). -/
theorem C6_chunk_ordering (source : String) :
    chunkCode source =
      importPart (splitLines source) ++ mainScan (splitLines source) 0 ∧
    List.Chain' (fun a b => a.endLine < b.startLine)
      (mainScan (splitLines source) 0) ∧
    List.Forall (fun c => 1 ≤ c.startLine ∧ c.startLine ≤ c.endLine ∧
      c.endLine ≤ (splitLines source).length) (mainScan (splitLines source) 0) := by
  have h := mainScan_sorted_aux (splitLines source) (splitLines source).length 0
    (by omega)
  exact ⟨rfl, h.2, h.1⟩

/-- C6 counterexample: for a source whose import line sits inside a
brace-delimited declaration, chunkCode returns the import chunk (lines
2-2) first and the declaration chunk (lines 1-2) second, so the chunk
sequence is not ordered by startLine and line 2 belongs to two chunks. -/
theorem C6_counterexample :
    (chunkCode "const x = \x7b\nimport a from \"b\";\n\x7d").map
        (fun c => (c.type, c.startLine, c.endLine)) =
      [(ChunkType.imp, 2, 2), (ChunkType.blk, 1, 2)] ∧
    ¬ List.Chain' (fun a b => a.startLine ≤ b.startLine)
      (chunkCode "const x = \x7b\nimport a from \"b\";\n\x7d") ∧
    ¬ List.Chain' (fun a b => a.endLine < b.startLine)
      (chunkCode "const x = \x7b\nimport a from \"b\";\n\x7d") := by
  have hcc : chunkCode "const x = \x7b\nimport a from \"b\";\n\x7d" =
      [⟨"import a from \"b\";", ChunkType.imp, 2, 2, some "imports"⟩,
       ⟨"const x = \x7b\nimport a from \"b\";", ChunkType.blk, 1, 2, some "x"⟩] := by
    decide
  refine ⟨by rw [hcc]; rfl, ?_, ?_⟩
  · rw [hcc]
    simp only [List.chain'_cons, List.chain'_singleton, and_true]
    omega
  · rw [hcc]
    simp only [List.chain'_cons, List.chain'_singleton, and_true]
    omega

/-! ### C8: unbalanced-brace behaviour -/

/-- A class declaration whose opening brace never closes, followed by 34
one-character lines (and a trailing empty line from the final newline):
36 lines in all. -/
def c8Src : String := "class A \x7b\n" ++ String.join (List.replicate 34 "x\n")

/-- C8 counterexample: with an opening brace that never rebalances, the
emitted chunk runs to the last line of the file (endLine 36), not to a
statement-style end bounded by the 30-line lookahead window — the chunk
extent exceeds the window. -/
theorem C8_counterexample :
    (splitLines c8Src).length = 36 ∧
    (chunkCode c8Src).map (fun c => (c.type, c.startLine, c.endLine)) =
      [(ChunkType.cls, 1, 36)] ∧
    ¬ (36 ≤ 1 + 29) := by
  refine ⟨by decide, by decide, by omega⟩

/-- C8 amended: the block-end scan is always bounded by the file (start
≤ end < number of lines — no unbounded scan, and the function is total,
so no crash); the statement-style fallback bounded by the 30-line window
applies exactly when the brace scan found no opening brace (it returns
Sum.inr false); when an opening brace was found but the depth never
returned to zero (Sum.inr true) the result is the last line of the file
instead. findStatementEnd itself always lies within the window. -/
theorem C8_block_end (lines : List (List Char)) (start : Nat)
    (h : start < lines.length) :
    (start ≤ findBlockEnd lines start ∧ findBlockEnd lines start < lines.length) ∧
    (fbeAux (lines.drop start) start 0 false = Sum.inr false →
      findBlockEnd lines start = findStatementEnd lines start) ∧
    (fbeAux (lines.drop start) start 0 false = Sum.inr true →
      findBlockEnd lines start = lines.length - 1) ∧
    (start ≤ findStatementEnd lines start ∧
      findStatementEnd lines start ≤ start + 29 ∧
      findStatementEnd lines start < lines.length) := by
  refine ⟨findBlockEnd_bounds lines start h, ?_, ?_,
    findStatementEnd_bounds lines start h⟩
  · intro hf
    unfold findBlockEnd
    rw [hf]
  · intro hf
    unfold findBlockEnd
    rw [hf]

/-- Witness for C8 on the concrete unbalanced source. -/
theorem C8_block_end_witness :
    0 < (splitLines c8Src).length ∧
      ((0 ≤ findBlockEnd (splitLines c8Src) 0 ∧
        findBlockEnd (splitLines c8Src) 0 < (splitLines c8Src).length) ∧
      (fbeAux ((splitLines c8Src).drop 0) 0 0 false = Sum.inr false →
        findBlockEnd (splitLines c8Src) 0 = findStatementEnd (splitLines c8Src) 0) ∧
      (fbeAux ((splitLines c8Src).drop 0) 0 0 false = Sum.inr true →
        findBlockEnd (splitLines c8Src) 0 = (splitLines c8Src).length - 1) ∧
      (0 ≤ findStatementEnd (splitLines c8Src) 0 ∧
        findStatementEnd (splitLines c8Src) 0 ≤ 0 + 29 ∧
        findStatementEnd (splitLines c8Src) 0 < (splitLines c8Src).length)) :=
  ⟨by decide, C8_block_end (splitLines c8Src) 0 (by decide)⟩

/-! ### C7: the import block -/

theorem mem_dropWhile_of_mem {α : Type} {p : α → Bool} {c : α}
    (hc : p c = false) : ∀ {l : List α}, c ∈ l → c ∈ l.dropWhile p := by
  intro l
  induction l with
  | nil => intro h; cases h
  | cons a l ih =>
    intro h
    by_cases hpa : p a = true
    · rw [List.dropWhile_cons_of_pos hpa]
      rcases List.mem_cons.mp h with h1 | h1
      · rw [h1] at hc
        rw [hpa] at hc
        cases hc
      · exact ih h1
    · rw [List.dropWhile_cons_of_neg hpa]
      exact h

theorem trimChars_subset (l : List Char) : trimChars l ⊆ l := by
  unfold trimChars
  intro c hc
  rw [List.mem_reverse] at hc
  have h1 := List.dropWhile_subset (l := (l.dropWhile jsWs).reverse) jsWs hc
  rw [List.mem_reverse] at h1
  exact List.dropWhile_subset jsWs h1

theorem mem_trimChars_of_mem {c : Char} (hc : jsWs c = false) {l : List Char}
    (h : c ∈ l) : c ∈ trimChars l := by
  unfold trimChars
  rw [List.mem_reverse]
  apply mem_dropWhile_of_mem hc
  rw [List.mem_reverse]
  exact mem_dropWhile_of_mem hc h

theorem mem_intercalate_head {sep l0 : List Char} {xs : List (List Char)}
    {c : Char} (h : c ∈ l0) : c ∈ List.intercalate sep (l0 :: xs) := by
  unfold List.intercalate
  cases xs with
  | nil => simpa using h
  | cons x xs =>
    rw [List.intersperse_cons₂, List.flatten_cons]
    exact List.mem_append_left _ h

theorem getD_of_drop_cons {lines : List (List Char)} {j : Nat}
    {l : List Char} {rest : List (List Char)} (h : lines.drop j = l :: rest) :
    lines.getD j [] = l := by
  have h1 : lines[j]? = some l := by
    have h2 : (lines.drop j)[0]? = some l := by rw [h]; simp
    rwa [List.getElem?_drop, Nat.add_zero] at h2
  simp [List.getD, h1]

theorem importScanAux_reach (lines : List (List Char)) (k : Nat)
    (hk : k < lines.length)
    (h0 : lineIsImportStart (trimChars (lines.getD 0 [])) = true)
    (hext : ∀ j, j ≤ k →
      lineIsImportStart (trimChars (lines.getD j [])) = true ∨
      lineIsImportCont (trimChars (lines.getD j [])) = true) :
    ∀ (m j : Nat) (s e : Int), j + m = k + 1 →
      ((j = 0 ∧ s = -1 ∧ e = -1) ∨ (1 ≤ j ∧ s = 0 ∧ e = (j : Int) - 1)) →
      importScanAux (lines.drop j) j s e =
        importScanAux (lines.drop (k + 1)) (k + 1) 0 (k : Int) := by
  intro m
  induction m with
  | zero =>
    intro j s e hm hinv
    have hj : j = k + 1 := by omega
    subst hj
    rcases hinv with ⟨h1, _, _⟩ | ⟨_, hs, he⟩
    · omega
    · subst hs
      have he' : e = (k : Int) := by omega
      rw [he']
  | succ m ih =>
    intro j s e hm hinv
    have hjk : j ≤ k := by omega
    cases hdrop : lines.drop j with
    | nil =>
      exfalso
      have := List.length_drop j lines
      rw [hdrop] at this
      simp at this
      omega
    | cons l rest =>
      have hgd : lines.getD j [] = l := getD_of_drop_cons hdrop
      have hA : (lineIsImportStart (trimChars l) ||
          (decide (0 ≤ s) && lineIsImportCont (trimChars l))) = true := by
        rcases hinv with ⟨hj0, hs, _⟩ | ⟨hj1, hs, _⟩
        · subst hj0
          rw [← hgd]
          rw [h0]
          rfl
        · subst hs
          rcases hext j hjk with h1 | h1
          · rw [← hgd] at *
            rw [h1]
            rfl
          · rw [← hgd] at *
            rw [h1]
            simp
      rw [importScanAux]
      rw [if_pos hA]
      have hs' : (if s < 0 then (j : Int) else s) = 0 := by
        rcases hinv with ⟨hj0, hs, _⟩ | ⟨_, hs, _⟩
        · subst hs
          rw [if_pos (by omega)]
          simp [hj0]
        · subst hs
          rw [if_neg (by omega)]
      rw [hs']
      have hrest : rest = lines.drop (j + 1) := (drop_cons_succ hdrop).symm
      rw [hrest]
      exact ih (j + 1) 0 (j : Int) (by omega) (Or.inr ⟨by omega, rfl, by omega⟩)

theorem importScan_run (lines : List (List Char)) (k : Nat)
    (hk : k < lines.length)
    (h0 : lineIsImportStart (trimChars (lines.getD 0 [])) = true)
    (hext : ∀ j, j ≤ k →
      lineIsImportStart (trimChars (lines.getD j [])) = true ∨
      lineIsImportCont (trimChars (lines.getD j [])) = true)
    (hbreak : k + 1 = lines.length ∨
      (lineIsImportStart (trimChars (lines.getD (k + 1) [])) = false ∧
       lineIsImportCont (trimChars (lines.getD (k + 1) [])) = false ∧
       "/*".data.isPrefixOf (trimChars (lines.getD (k + 1) [])) = false)) :
    importScan lines = (0, (k : Int)) := by
  have h1 : importScan lines =
      importScanAux (lines.drop (k + 1)) (k + 1) 0 (k : Int) := by
    unfold importScan
    have := importScanAux_reach lines k hk h0 hext (k + 1) 0 (-1) (-1)
      (by omega) (Or.inl ⟨rfl, rfl, rfl⟩)
    simpa using this
  rw [h1]
  cases hdrop : lines.drop (k + 1) with
  | nil => rfl
  | cons l rest =>
    have hgd : lines.getD (k + 1) [] = l := getD_of_drop_cons hdrop
    have hlen : k + 1 < lines.length := lt_length_of_drop_cons hdrop
    rcases hbreak with h2 | ⟨hst, hco, hbc⟩
    · omega
    · rw [← hgd] at *
      rw [importScanAux]
      rw [if_neg (by
        rw [hst, hco]
        simp)]
      rw [if_pos (by
        have hne : (trimChars (lines.getD (k + 1) [])).isEmpty = false := by
          unfold lineIsImportCont at hco
          rcases Bool.or_eq_false_iff.mp hco with ⟨h3, _⟩
          exact (Bool.or_eq_false_iff.mp h3).2
        have hsl : ("//".data.isPrefixOf
            (trimChars (lines.getD (k + 1) []))) = false := by
          unfold lineIsImportCont at hco
          exact (Bool.or_eq_false_iff.mp hco).2
        rw [hne, hsl, hbc]
        rfl)]

theorem import_content_ne_nil (lines : List (List Char)) (k : Nat)
    (hk : k < lines.length)
    (h0 : lineIsImportStart (trimChars (lines.getD 0 [])) = true) :
    trimChars (List.intercalate ['\n'] (lines.take (k + 1))) ≠ [] := by
  cases lines with
  | nil => simp at hk
  | cons l0 rest =>
    have hgd : (l0 :: rest).getD 0 [] = l0 := rfl
    rw [hgd] at h0
    have hi : 'i' ∈ trimChars l0 := by
      unfold lineIsImportStart at h0
      rcases Bool.or_eq_true_iff.mp h0 with h1 | h1
      · obtain ⟨t2, ht2⟩ := List.isPrefixOf_iff_prefix.mp h1
        rw [← ht2]
        exact List.mem_append_left _ (by decide)
      · obtain ⟨t2, ht2⟩ := List.isPrefixOf_iff_prefix.mp h1
        rw [← ht2]
        exact List.mem_append_left _ (by decide)
    have hi0 : 'i' ∈ l0 := trimChars_subset l0 hi
    have him : 'i' ∈ List.intercalate ['\n'] ((l0 :: rest).take (k + 1)) := by
      rw [List.take_succ_cons]
      exact mem_intercalate_head hi0
    intro hnil
    have := mem_trimChars_of_mem (by decide) him
    rw [hnil] at this
    cases this

/-- C7 amended: when lines 0..k each start an import or are one of the
continuation forms the scanner accepts (a line starting with "\x7d from",
a blank line, or a line comment), and line k+1 (if any) breaks the block
(it is none of those, is nonblank, and does not open a block comment),
chunkCode emits lines 1..k+1 (1-based) as one import chunk, with the
trimmed joined content (which is necessarily non-empty), followed by the
declaration-scan chunks. A member line of a multi-line import list (such
as "  a,") is not a continuation form and breaks the block — see the
counterexample. -/
theorem C7_import_block (source : String) (k : Nat)
    (hk : k < (splitLines source).length)
    (h0 : lineIsImportStart (trimChars ((splitLines source).getD 0 [])) = true)
    (hext : ∀ j, j ≤ k →
      lineIsImportStart (trimChars ((splitLines source).getD j [])) = true ∨
      lineIsImportCont (trimChars ((splitLines source).getD j [])) = true)
    (hbreak : k + 1 = (splitLines source).length ∨
      (lineIsImportStart (trimChars ((splitLines source).getD (k + 1) [])) = false ∧
       lineIsImportCont (trimChars ((splitLines source).getD (k + 1) [])) = false ∧
       "/*".data.isPrefixOf (trimChars ((splitLines source).getD (k + 1) [])) = false)) :
    chunkCode source =
      ⟨String.mk (trimChars (List.intercalate ['\n']
          ((splitLines source).take (k + 1)))),
        ChunkType.imp, 1, k + 1, some "imports"⟩ ::
        mainScan (splitLines source) 0 := by
  unfold chunkCode
  have hrun := importScan_run (splitLines source) k hk h0 hext hbreak
  have himp : importPart (splitLines source) =
      [⟨String.mk (trimChars (List.intercalate ['\n']
          ((splitLines source).take (k + 1)))),
        ChunkType.imp, 1, k + 1, some "imports"⟩] := by
    unfold importPart
    rw [hrun]
    rw [if_pos (by simp)]
    simp only [Int.toNat_zero, Int.toNat_natCast, List.drop_zero, Nat.sub_zero]
    rw [if_pos (by
      have := import_content_ne_nil (splitLines source) k hk h0
      cases hc : (trimChars (List.intercalate ['\n']
          ((splitLines source).take (k + 1)))) with
      | nil => exact absurd hc this
      | cons a l => simp)]
  rw [himp]
  rfl

/-- C7 counterexample: a multi-line import list whose member lines do
not start with "\x7d from": the import statement spans lines 1..4 (its
closing line "\x7d from 'x';" ends the statement), but the member line
"  a," already breaks the scan, so the emitted import chunk covers only
line 1 — the entire import run is not emitted as one chunk. -/
theorem C7_counterexample :
    (splitLines "import \x7b\n  a,\n  b\n\x7d from 'x';\nconst z = 1;\n").length = 6 ∧
    lineIsImportStart (trimChars ((splitLines
      "import \x7b\n  a,\n  b\n\x7d from 'x';\nconst z = 1;\n").getD 0 [])) = true ∧
    lineIsImportCont (trimChars ((splitLines
      "import \x7b\n  a,\n  b\n\x7d from 'x';\nconst z = 1;\n").getD 3 [])) = true ∧
    (chunkCode "import \x7b\n  a,\n  b\n\x7d from 'x';\nconst z = 1;\n").map
        (fun c => (c.type, c.startLine, c.endLine)) =
      [(ChunkType.imp, 1, 1), (ChunkType.blk, 5, 5)] := by
  refine ⟨by decide, by decide, by decide, by decide⟩

/-- Witness for C7 on a two-line import block followed by code. -/
theorem C7_import_block_witness :
    chunkCode "import a from 'x';\nimport b from 'y';\nconst z = 1;" =
      ⟨String.mk (trimChars (List.intercalate ['\n']
          ((splitLines "import a from 'x';\nimport b from 'y';\nconst z = 1;").take 2))),
        ChunkType.imp, 1, 2, some "imports"⟩ ::
        mainScan (splitLines "import a from 'x';\nimport b from 'y';\nconst z = 1;") 0 :=
  C7_import_block "import a from 'x';\nimport b from 'y';\nconst z = 1;" 1
    (by decide) (by decide)
    (by decide)
    (Or.inr ⟨by decide, by decide, by decide⟩)

/-! ### C9: findSimilar -/

theorem l2normSq_pos_of_getElem {v : List ℝ} {i : Nat} {x : ℝ}
    (hg : v[i]? = some x) (hx : x ≠ 0) : 0 < l2normSq v := by
  have hnn := l2normSq_nonneg v
  rcases eq_or_lt_of_le hnn with h0 | h0
  · exfalso
    have hrep := eq_replicate_of_l2normSq_eq_zero h0.symm
    rw [hrep] at hg
    rw [List.getElem?_replicate] at hg
    by_cases hi : i < v.length
    · rw [if_pos hi] at hg
      exact hx (Option.some_inj.mp hg).symm
    · rw [if_neg hi] at hg
      cases hg
  · exact h0

theorem embed_data_pos {s : VecState} {text : String}
    (h : ¬ s.vocab.length = 0)
    (hpos : 0 < l2normSq (preVec s (tokenize text))) :
    (embed s text).data = (preVec s (tokenize text)).map
      (fun x => x / Real.sqrt (l2normSq (preVec s (tokenize text)))) := by
  unfold embed
  rw [if_neg h]
  simp only
  rw [if_pos (Real.sqrt_pos.mpr hpos)]

theorem embed_normSq_one {s : VecState} {text : String} (h : s.vocab ≠ [])
    (hpos : 0 < l2normSq (preVec s (tokenize text))) :
    l2normSq (embed s text).data = 1 := by
  rw [embed_data_pos (fun h0 => h (List.eq_nil_of_length_eq_zero h0)) hpos]
  exact l2normSq_normalized hpos

theorem cosine_self_embed {s : VecState} {text : String} (h : s.vocab ≠ [])
    (hpos : 0 < l2normSq (preVec s (tokenize text))) :
    cosineSimilarity (embed s text)
      ⟨(embed s text).data, (embed s text).dim⟩ = 1 := by
  have hdim : (embed s text).dim = s.vocab.length := (embed_dichotomy s text h).2.1
  unfold cosineSimilarity
  rw [if_neg (by
    rw [hdim]
    simp only [not_or]
    constructor <;> (intro h0; exact h (List.eq_nil_of_length_eq_zero h0)))]
  rw [dotPrefix_self]
  exact embed_normSq_one h hpos

theorem c9_normSq_pos :
    0 < l2normSq (preVec vDemo (tokenize "function fooBar")) := by
  have hwf : Wf vDemo := by decide
  have hv : mapGet vDemo.vocab "function" = some 0 := by decide
  have hg := preVec_get vDemo (tokenize "function fooBar") hwf "function" 0 hv
  have hcount : (tokenize "function fooBar").count "function" = 1 := by decide
  have hlen : (tokenize "function fooBar").length = 3 := by decide
  rw [hcount, hlen] at hg
  have hidf : 0 < idfVal vDemo "function" := by
    unfold idfVal
    apply Real.log_pos
    have hdfv : docFreqVal vDemo "function" = 1 := by decide
    have hN : vDemo.totalDocs = 2 := by decide
    rw [hdfv, hN]
    norm_num
  apply l2normSq_pos_of_getElem hg
  have h13 : (0 : ℝ) < ((1 : ℕ) : ℝ) / ((3 : ℕ) : ℝ) := by norm_num
  exact ne_of_gt (mul_pos h13 hidf)

/-- The 21 stored rows of the C9 counterexample: distinct ids, all in
file "other.ts", each storing exactly the query's own embedding. -/
noncomputable def c9Rows : List StoredRow :=
  (List.range 21).map (fun n =>
    ⟨⟨n, "other.ts", "", ChunkType.func, none, 1, 1, "proj"⟩,
      some (embed vDemo "function fooBar").data⟩)

/-- Modelled from the claim: a stored chunk qualifies for
findSimilarTo(chunkContent, threshold, excludeFilePath) when its
similarity to the snippet's embedding is at least the threshold and its
file path differs from excludeFilePath; the claim asserts the result is
exactly the qualifying chunks, no qualifying chunk omitted. -/
def specQualifiesC9 (vec : VecState) (code : String) (threshold : ℝ)
    (excludeFile : String) (r : StoredRow) : Prop :=
  threshold ≤ cosineSimilarity (embed vec code)
      ⟨r.embedding.getD [], (embed vec code).dim⟩ ∧
  r.chunk.file_path ≠ excludeFile

theorem searchStore_length_le (vec : VecState) (rows : List StoredRow)
    (query : String) (limit : Nat) (scope : Option String) :
    (searchStore vec rows query limit scope).length ≤ limit := by
  unfold searchStore
  by_cases h : (embed vec query).dim = 0
  · rw [if_pos h]
    simp
  · rw [if_neg h]
    simp only [List.length_take]
    exact min_le_left _ _

theorem findSimilar_length_le (vec : VecState) (rows : List StoredRow)
    (code : String) (threshold : ℝ) (ex : Option String) :
    (findSimilar vec rows code threshold ex).length ≤ 20 :=
  le_trans (List.length_filter_le _ _) (searchStore_length_le vec rows code 20 none)

/-- C9 amended: findSimilar returns at most 20 results (search truncates
to its limit of 20), and every returned result has similarity at least
the threshold, similarity above the 0.01 noise floor, a file path
different from the excluded one, and comes from a stored chunk; it is
sound but not complete — qualifying chunks beyond the top 20, or at or
below the 0.01 floor, are omitted. -/
theorem C9_findSimilar_sound (vec : VecState) (rows : List StoredRow)
    (code : String) (threshold : ℝ) (excludeFile : Option String) :
    (findSimilar vec rows code threshold excludeFile).length ≤ 20 ∧
    List.Forall (fun r => threshold ≤ r.similarity ∧
      (1 : ℝ) / 100 < r.similarity ∧
      (∀ f, excludeFile = some f → r.chunk.file_path ≠ f) ∧
      r.chunk ∈ rows.map (fun x => x.chunk))
      (findSimilar vec rows code threshold excludeFile) := by
  refine ⟨findSimilar_length_le vec rows code threshold excludeFile, ?_⟩
  rw [List.forall_iff_forall_mem]
  intro r hr
  unfold findSimilar at hr
  obtain ⟨hin, hpred⟩ := List.mem_filter.mp hr
  have hp1 : threshold ≤ r.similarity :=
    of_decide_eq_true (Bool.and_eq_true_iff.mp hpred).1
  have hp2 : ∀ f, excludeFile = some f → r.chunk.file_path ≠ f := by
    intro f hf
    have h2 := (Bool.and_eq_true_iff.mp hpred).2
    rw [hf] at h2
    simpa using h2
  have hsearch : (1 : ℝ) / 100 < r.similarity ∧
      r.chunk ∈ rows.map (fun x => x.chunk) := by
    unfold searchStore at hin
    by_cases hd : (embed vec code).dim = 0
    · rw [if_pos hd] at hin
      cases hin
    · rw [if_neg hd] at hin
      simp only at hin
      have htake := List.mem_of_mem_take hin
      rw [List.mem_mergeSort] at htake
      obtain ⟨row, hrow, hf⟩ := List.mem_filterMap.mp htake
      cases hemb : row.embedding with
      | none =>
        rw [hemb] at hf
        cases hf
      | some blob =>
        rw [hemb] at hf
        simp only at hf
        by_cases hbe : blob.isEmpty = true
        · rw [if_pos hbe] at hf
          cases hf
        · rw [if_neg hbe] at hf
          by_cases hsim : (1 : ℝ) / 100 <
              cosineSimilarity (embed vec code) ⟨blob, (embed vec code).dim⟩
          · rw [if_pos hsim] at hf
            have heq := Option.some_inj.mp hf
            constructor
            · rw [← heq]
              exact hsim
            · rw [← heq]
              exact List.mem_map.mpr ⟨row, hrow, rfl⟩
          · rw [if_neg hsim] at hf
            cases hf
  exact ⟨hp1, hsearch.1, hp2, hsearch.2⟩

/-- Witness for C9 amended at concrete inputs. -/
theorem C9_findSimilar_sound_witness :
    (findSimilar vDemo c9Rows "function fooBar" (1/2)
        (some "mine.ts")).length ≤ 20 :=
  (C9_findSimilar_sound vDemo c9Rows "function fooBar" (1/2) (some "mine.ts")).1

/-- C9 counterexample: 21 distinct stored chunks, every one of which
qualifies (similarity 1 ≥ threshold 1/2, file path differs from the
excluded one), yet findSimilar returns at most 20 results, so some
qualifying chunk is omitted — the claimed completeness fails. -/
theorem C9_counterexample :
    c9Rows.length = 21 ∧
    (c9Rows.map (fun r => r.chunk)).Nodup ∧
    (∀ r, r ∈ c9Rows → specQualifiesC9 vDemo "function fooBar" (1/2) "mine.ts" r) ∧
    (findSimilar vDemo c9Rows "function fooBar" (1/2) (some "mine.ts")).length ≤ 20 ∧
    ¬ (∀ r, r ∈ c9Rows →
        specQualifiesC9 vDemo "function fooBar" (1/2) "mine.ts" r →
        r.chunk ∈ (findSimilar vDemo c9Rows "function fooBar" (1/2)
          (some "mine.ts")).map (fun x => x.chunk)) := by
  have hlen : c9Rows.length = 21 := by
    unfold c9Rows
    simp
  have hnd : (c9Rows.map (fun r => r.chunk)).Nodup := by
    unfold c9Rows
    rw [List.map_map]
    apply List.Nodup.map
    · intro a b hab
      exact congrArg StoredChunk.id hab
    · exact List.nodup_range 21
  have hqual : ∀ r, r ∈ c9Rows →
      specQualifiesC9 vDemo "function fooBar" (1/2) "mine.ts" r := by
    intro r hr
    unfold c9Rows at hr
    obtain ⟨n, hn, rfl⟩ := List.mem_map.mp hr
    unfold specQualifiesC9
    constructor
    · have hone := @cosine_self_embed vDemo "function fooBar"
        (by decide) c9_normSq_pos
      simp only [Option.getD_some]
      rw [hone]
      norm_num
    · show ("other.ts" : String) ≠ "mine.ts"
      decide
  refine ⟨hlen, hnd, hqual,
    findSimilar_length_le vDemo c9Rows "function fooBar" (1/2) (some "mine.ts"), ?_⟩
  intro hall
  have hsub : (c9Rows.map (fun r => r.chunk)) ⊆
      (findSimilar vDemo c9Rows "function fooBar" (1/2)
        (some "mine.ts")).map (fun x => x.chunk) := by
    intro c hc
    obtain ⟨r, hr, rfl⟩ := List.mem_map.mp hc
    exact hall r hr (hqual r hr)
  have hsp := (List.subperm_of_subset hnd hsub).length_le
  have h1 : (c9Rows.map (fun r => r.chunk)).length = 21 := by
    rw [List.length_map]
    exact hlen
  have h2 : ((findSimilar vDemo c9Rows "function fooBar" (1/2)
      (some "mine.ts")).map (fun x => x.chunk)).length ≤ 20 := by
    rw [List.length_map]
    exact findSimilar_length_le vDemo c9Rows "function fooBar" (1/2) (some "mine.ts")
  omega

end MetaSupervisor
